import Mathlib

/-!
Verification of go-http-playback-proxy against its specification.

The Go sources are shallowly embedded: Go strings are byte strings, modelled
as `List Char` where every `Char` stands for one byte (the repository only
ever manipulates ASCII in the code paths verified here; multi-byte UTF-8
sequences would appear as several byte-characters).  Go `[]byte` values are
`List Nat`.  Go `time.Time`/`time.Duration`/`float64` arithmetic is modelled
with exact rationals (`ℚ`), durations are measured in nanoseconds exactly as
Go's `time.Duration`.  Fallible Go functions returning `(T, error)` become
`Except (List Char) T` or `Option T`.  External collaborators (the Go
standard-library compression codecs, `golang.org/x/text` transcoders, the
minification/beautification engines and the `regexp` engine) are parameters
of the embedding: the repository's own glue code around them is embedded
verbatim.
-/

/-- A Go string: a list of byte-characters. -/
abbrev GoStr := List Char

/-- Turn a Lean string literal into the Go string model. -/
def gs (s : String) : GoStr := s.data

/-- ASCII lower-casing of one byte, as done by Go `strings.ToLower` on ASCII. -/
def asciiLower (c : Char) : Char :=
  if 65 ≤ c.toNat ∧ c.toNat ≤ 90 then Char.ofNat (c.toNat + 32) else c

/-- ASCII upper-casing of one byte, as done by Go `strings.ToUpper` on ASCII. -/
def asciiUpper (c : Char) : Char :=
  if 97 ≤ c.toNat ∧ c.toNat ≤ 122 then Char.ofNat (c.toNat - 32) else c

/-- Go `strings.ToLower` (ASCII fragment, applied bytewise). -/
def goToLower (s : GoStr) : GoStr := s.map asciiLower

/-- Go `strings.ToUpper` (ASCII fragment, applied bytewise). -/
def goToUpper (s : GoStr) : GoStr := s.map asciiUpper

/-- Go `strings.Split(s, sep)` for a one-byte separator.
`splitChar [] c = [[]]`, matching Go's `Split("", sep) = [""]`. -/
def splitChar (s : GoStr) (sep : Char) : List GoStr :=
  match s with
  | [] => [[]]
  | c :: rest =>
    match splitChar rest sep with
    | [] => if c = sep then [[], []] else [[c]]   -- unreachable: split is never empty
    | h :: t => if c = sep then [] :: h :: t else (c :: h) :: t

/-- Go `strings.Join(xs, sep)` for a one-byte separator. -/
def joinChar (xs : List GoStr) (sep : Char) : GoStr :=
  match xs with
  | [] => []
  | [x] => x
  | x :: rest => x ++ sep :: joinChar rest sep

/-- Go `strings.HasPrefix`. -/
def goHasPre (s pre : GoStr) : Bool := decide (pre <+: s)

/-- Go `strings.HasSuffix`. -/
def goHasSuf (s suf : GoStr) : Bool := decide (suf <:+ s)

/-- Go `strings.TrimPrefix`. -/
def goTrimPre (s pre : GoStr) : GoStr :=
  if pre <+: s then s.drop pre.length else s

/-- Go `strings.TrimSuffix`. -/
def goTrimSuf (s suf : GoStr) : GoStr :=
  if suf <:+ s then s.take (s.length - suf.length) else s

/-- Backward scan of `filepath.Ext`: walks the reversed path, collecting bytes
until it meets a `'.'` (extension found) or a path separator (no extension). -/
def extScan : List Char → GoStr → GoStr
  | [], _ => []
  | c :: rest, acc =>
    if c = '/' then []
    else if c = '.' then '.' :: acc
    else extScan rest (c :: acc)

/-- Go `filepath.Ext`: the suffix beginning at the final dot in the final
slash-separated element of the path, empty if there is none. -/
def filepathExt (p : GoStr) : GoStr := extScan p.reverse []

/-- Go `strings.Index(s, pat)` (byte offset of the first occurrence). -/
def goIndexSub (s pat : GoStr) : Option Nat :=
  match s with
  | [] => if pat = [] then some 0 else none
  | _ :: rest =>
    if pat <+: s then some 0
    else (goIndexSub rest pat).map (· + 1)

/-- Go `strings.Contains(s, pat)`. -/
def containsSub (s pat : GoStr) : Bool := (goIndexSub s pat).isSome

/-- Go `strings.LastIndex(s, string(c))` for a one-byte pattern. -/
def lastIndexChar (s : GoStr) (c : Char) : Option Nat :=
  (goIndexSub s.reverse [c]).map (fun i => s.length - 1 - i)

/-- Go `strings.Trim(s, cutset)`: strip bytes of `cutset` from both ends. -/
def goTrimCutset (s cutset : GoStr) : GoStr :=
  ((s.dropWhile (cutset.contains ·)).reverse.dropWhile (cutset.contains ·)).reverse

example : splitChar (gs "a/b//c") '/' = [gs "a", gs "b", gs "", gs "c"] := by decide
example : joinChar [gs "a", gs "", gs "c"] '/' = gs "a//c" := by decide
example : filepathExt (gs "/a/b.tar.gz") = gs ".gz" := by decide
example : filepathExt (gs "/a.b/c") = gs "" := by decide
example : goIndexSub (gs "abcharset=x") (gs "charset=") = some 2 := by decide
example : goTrimCutset (gs " 'utf-8' ") (gs " \"'") = gs "utf-8" := by decide
example : lastIndexChar (gs "a~b~c") '~' = some 3 := by decide
example : goToUpper (gs "GeT") = gs "GET" := by decide

/-- Upper-case hex digit, as used by Go `net/url`'s escaper. -/
def hexDigitUpper (n : Nat) : Char :=
  if n < 10 then Char.ofNat (48 + n) else Char.ofNat (55 + n)

/-- Value of one hex digit byte, if it is one (Go `net/url.unhex`). -/
def hexVal (c : Char) : Option Nat :=
  if 48 ≤ c.toNat ∧ c.toNat ≤ 57 then some (c.toNat - 48)
  else if 97 ≤ c.toNat ∧ c.toNat ≤ 102 then some (c.toNat - 87)
  else if 65 ≤ c.toNat ∧ c.toNat ≤ 70 then some (c.toNat - 55)
  else none

/-- Go `net/url.shouldEscape(c, encodePathSegment)` negated: bytes left verbatim
by `url.PathEscape` (alphanumerics, `-_.~` and the reserved bytes `$&+:=@`). -/
def pathSegmentSafe (c : Char) : Bool :=
  (48 ≤ c.toNat ∧ c.toNat ≤ 57) ∨ (65 ≤ c.toNat ∧ c.toNat ≤ 90) ∨
  (97 ≤ c.toNat ∧ c.toNat ≤ 122) ∨
  c = '-' ∨ c = '_' ∨ c = '.' ∨ c = '~' ∨
  c = '$' ∨ c = '&' ∨ c = '+' ∨ c = ':' ∨ c = '=' ∨ c = '@'

/-- Go `url.PathEscape`: percent-escape every byte not safe in a path segment. -/
def pathEscape (s : GoStr) : GoStr :=
  s.flatMap fun c =>
    if pathSegmentSafe c then [c]
    else ['%', hexDigitUpper (c.toNat / 16), hexDigitUpper (c.toNat % 16)]

/-- Go `url.QueryUnescape`: decode `%XX` escapes and `+` as space; malformed
escapes are an error. -/
def queryUnescape : GoStr → Except GoStr GoStr
  | [] => .ok []
  | '%' :: a :: b :: rest =>
    match hexVal a, hexVal b with
    | some ha, some hb =>
      (queryUnescape rest).map (Char.ofNat (16 * ha + hb) :: ·)
    | _, _ => .error (gs "invalid URL escape")
  | '%' :: _ => .error (gs "invalid URL escape")
  | '+' :: rest => (queryUnescape rest).map (' ' :: ·)
  | c :: rest => (queryUnescape rest).map (c :: ·)

/-- One step of Go `path.Clean`'s segment processing: `""` and `"."` segments
are dropped, `".."` pops a segment (or is kept / dropped depending on
rootedness), anything else is pushed. The accumulator keeps segments in
reverse order. -/
def cleanSegsStep (rooted : Bool) (acc : List GoStr) (seg : GoStr) : List GoStr :=
  if seg = [] ∨ seg = gs "." then acc
  else if seg = gs ".." then
    match acc with
    | [] => if rooted then [] else [gs ".."]
    | top :: rest => if top = gs ".." then seg :: acc else rest
  else seg :: acc

/-- Functional model of Go `path.Clean` (which `filepath.Clean` is on Unix):
split on `/`, process the segments, and re-join. -/
def pathClean (p : GoStr) : GoStr :=
  if p = [] then gs "."
  else
    let rooted := goHasPre p (gs "/")
    let segs := ((splitChar p '/').foldl (cleanSegsStep rooted) []).reverse
    if segs = [] then (if rooted then gs "/" else gs ".")
    else (if rooted then gs "/" else []) ++ joinChar segs '/'

/-- Go `filepath.Join`: join from the first non-empty element with `/` and
clean the result; all-empty input yields the empty string. -/
def filepathJoin : List GoStr → GoStr
  | [] => []
  | e :: rest => if e = [] then filepathJoin rest
                 else pathClean (joinChar (e :: rest) '/')

example : pathEscape (gs "b c/d") = gs "b%20c%2Fd" := by decide
example : queryUnescape (gs "a=b%20c+d") = .ok (gs "a=b c d") := by rfl
example : queryUnescape (gs "a%2") = .error (gs "invalid URL escape") := by rfl
example : pathClean (gs "a//b/./c/../d") = gs "a/b/d" := by decide
example : filepathJoin [gs "get", gs "http", gs "h", gs "a/index.html"] =
    gs "get/http/h/a/index.html" := by decide

/-! ## Path codec (resource.go)

`url.Parse` and `URL.Hostname()` belong to the Go standard library; the
embedding therefore takes the already-parsed components `scheme`, `hostname`,
`path` and `rawQuery` as separate arguments. `crypto/sha1` and
`encoding/base64` are likewise external: the composite
`base64(SHA-1(remainder))` used for long-query compaction is the `hashFn`
parameter. -/

/-- Options for resource path conversion (`ResourcePathOptions`). -/
structure ResourcePathOptions where
  maxParamLength : Nat
  hashLength : Nat

/-- `DefaultResourcePathOptions`. -/
def defaultResourcePathOptions : ResourcePathOptions := ⟨32, 8⟩

/-- `normalizeResourcePath`: directory paths and extension-less paths get an
`index.html` appended. -/
def normalizeResourcePath (path : GoStr) : GoStr :=
  if goHasSuf path (gs "/") then path ++ gs "index.html"
  else if filepathExt path = [] then path ++ gs "/index.html"
  else path

/-- Go `strings.SplitN(s, "=", 2)` as used by the query codec: the part before
the first `'='` and, if any, the part after it. -/
def splitN2Eq (s : GoStr) : GoStr × Option GoStr :=
  match goIndexSub s ['='] with
  | none => (s, none)
  | some i => (s.take i, some (s.drop (i + 1)))

/-- `customEncodeQuery`: best-effort decode of the whole query, split on `&`,
then per-pair path-style percent-encoding that keeps `=` and `&` literal. -/
def customEncodeQuery (query : GoStr) : GoStr :=
  if query = [] then []
  else
    let decoded := match queryUnescape query with
                   | .ok d => d
                   | .error _ => query
    let params := splitChar decoded '&'
    joinChar (params.map fun p =>
      match splitN2Eq p with
      | (name, none) => pathEscape name
      | (name, some value) => pathEscape name ++ '=' :: pathEscape value) '&'

/-- `customDecodeQuery`: split on `&`, percent-decode each name and value
(best effort, keeping the raw text on decode failure). -/
def customDecodeQuery (query : GoStr) : GoStr :=
  if query = [] then []
  else
    let params := splitChar query '&'
    joinChar (params.map fun p =>
      match splitN2Eq p with
      | (name, none) =>
        (match queryUnescape name with | .ok d => d | .error _ => name)
      | (name, some value) =>
        (match queryUnescape name with | .ok d => d | .error _ => name) ++
        '=' :: (match queryUnescape value with | .ok d => d | .error _ => value)) '&'

/-- `handleURLParameters`: embed the encoded query into the filename using `~`,
compacting queries longer than `maxParamLength` with `hashFn` (the external
`base64(SHA-1(·))`). -/
def handleURLParameters (hashFn : GoStr → GoStr) (path rawQuery : GoStr)
    (options : ResourcePathOptions) : GoStr :=
  let encodedQuery := customEncodeQuery rawQuery
  let encodedQuery :=
    if options.maxParamLength < encodedQuery.length then
      encodedQuery.take options.maxParamLength ++
        (hashFn (encodedQuery.drop options.maxParamLength)).take options.hashLength
    else encodedQuery
  if goHasSuf path (gs "/index.html") then
    goTrimSuf path (gs "/index.html") ++ gs "/index~" ++ encodedQuery ++ gs ".html"
  else
    let ext := filepathExt path
    goTrimSuf path ext ++ '~' :: encodedQuery ++ ext

/-- `MethodURLToFilePathWithOptions`, taking the URL already parsed into
`scheme`, `hostname` (as returned by `URL.Hostname()`), `path` and `rawQuery`. -/
def methodURLToFilePathWithOptions (hashFn : GoStr → GoStr) (method : GoStr)
    (scheme hostname path rawQuery : GoStr) (options : ResourcePathOptions) :
    Except GoStr GoStr :=
  let methodLower := goToLower method
  let protocol0 := goToLower scheme
  let protocol := if protocol0 = [] then gs "http" else protocol0
  let hostnameLower := goToLower hostname
  if hostnameLower = [] then .error (gs "hostname is required in URL")
  else
    let path1 := if path = [] then gs "/" else path
    let path2 := normalizeResourcePath path1
    let path3 := if rawQuery ≠ [] then handleURLParameters hashFn path2 rawQuery options
                 else path2
    .ok (filepathJoin [methodLower, protocol, hostnameLower, goTrimPre path3 (gs "/")])

/-- `MethodURLToFilePath` with the default options. -/
def methodURLToFilePath (hashFn : GoStr → GoStr) (method : GoStr)
    (scheme hostname path rawQuery : GoStr) : Except GoStr GoStr :=
  methodURLToFilePathWithOptions hashFn method scheme hostname path rawQuery
    defaultResourcePathOptions

/-- `FilePathToMethodURL`: reverse conversion from a stored file path back to
`(method, url)`. -/
def filePathToMethodURL (filePath : GoStr) : Except GoStr (GoStr × GoStr) :=
  let parts := splitChar filePath '/'
  if parts.length < 3 then .error (gs "invalid file path format")
  else
    let method := goToUpper (parts.getD 0 [])
    let protocol := parts.getD 1 []
    let hostname := parts.getD 2 []
    let pathParts := parts.drop 3
    let path0 := '/' :: joinChar pathParts '/'
    let path1 := if goHasSuf path0 (gs "/index.html")
                 then goTrimSuf path0 (gs "index.html") else path0
    let pq : GoStr × GoStr :=
      if containsSub path1 (gs "~") then
        match lastIndexChar path1 '~' with
        | some lastTilde =>
          let ext := filepathExt path1
          if ext ≠ [] then
            let queryWithExt := path1.drop (lastTilde + 1)
            let query := goTrimSuf queryWithExt ext
            if containsSub (path1.take lastTilde) (gs "/index") ∧ ext = gs ".html" then
              let pathBeforeIndex := goTrimSuf (path1.take lastTilde) (gs "/index")
              (if pathBeforeIndex = [] then gs "/" else pathBeforeIndex,
               customDecodeQuery query)
            else
              (path1.take lastTilde ++ ext, customDecodeQuery query)
          else
            (path1.take lastTilde, customDecodeQuery (path1.drop (lastTilde + 1)))
        | none => (path1, [])
      else (path1, [])
    let url := protocol ++ gs "://" ++ hostname ++ pq.1 ++
               (if pq.2 ≠ [] then '?' :: pq.2 else [])
    .ok (method, url)

/-- `SanitizeFilePath`: replace filesystem-unsafe bytes with `_` and shield
Windows reserved device names with a leading `_`. -/
def sanitizeFilePath (path : GoStr) : GoStr :=
  let unsafeChars : List Char := ['<', '>', ':', '"', '|', '?', '*']
  let replaced := path.map (fun c => if unsafeChars.contains c then '_' else c)
  let reserved : List GoStr :=
    [gs "CON", gs "PRN", gs "AUX", gs "NUL",
     gs "COM1", gs "COM2", gs "COM3", gs "COM4", gs "COM5", gs "COM6",
     gs "COM7", gs "COM8", gs "COM9",
     gs "LPT1", gs "LPT2", gs "LPT3", gs "LPT4", gs "LPT5", gs "LPT6",
     gs "LPT7", gs "LPT8", gs "LPT9"]
  let parts := (splitChar replaced '/').map fun part =>
    let nameWithoutExt := goTrimSuf part (filepathExt part)
    if reserved.any (fun r => goToLower nameWithoutExt = goToLower r)
    then '_' :: part else part
  joinChar parts '/'

/-- Hash stand-in for concrete evaluations; the compaction branch that would
call it is outside every verified domain. -/
def nullHashFn : GoStr → GoStr := fun _ => []

example : methodURLToFilePath nullHashFn (gs "GET") (gs "http") (gs "example.com")
    (gs "/foo") [] = .ok (gs "get/http/example.com/foo/index.html") := by rfl
example : methodURLToFilePath nullHashFn (gs "GET") (gs "https") (gs "Example.com")
    (gs "/a/b.txt") (gs "x=1") = .ok (gs "get/https/example.com/a/b~x=1.txt") := by rfl
example : methodURLToFilePath nullHashFn (gs "GET") (gs "http") (gs "h")
    (gs "/") (gs "x=1") = .ok (gs "get/http/h/index~x=1.html") := by rfl
example : filePathToMethodURL (gs "get/http/example.com/foo/index.html") =
    .ok (gs "GET", gs "http://example.com/foo/") := by rfl
example : filePathToMethodURL (gs "get/https/example.com/a/b~x=1.txt") =
    .ok (gs "GET", gs "https://example.com/a/b.txt?x=1") := by rfl
example : filePathToMethodURL (gs "get/http/h/index~x=1.html") =
    .ok (gs "GET", gs "http://h/?x=1") := by rfl
example : filePathToMethodURL (gs "get/http/h/dir/index~x=1.html") =
    .ok (gs "GET", gs "http://h/dir?x=1") := by rfl
example : sanitizeFilePath (gs "get/http/h/con.txt/a?b") = gs "get/http/h/_con.txt/a_b" := by
  rfl

/-! ## HTTP headers (`net/http.Header` fragment)

A Go header map is modelled as a function from canonical keys to value lists;
`Header.Set` stores a singleton list under the canonicalized key. -/

/-- Go `httpguts.ValidHeaderFieldByte`: alphanumerics and the token specials. -/
def validHeaderFieldByte (c : Char) : Bool :=
  (48 ≤ c.toNat ∧ c.toNat ≤ 57) ∨ (65 ≤ c.toNat ∧ c.toNat ≤ 90) ∨
  (97 ≤ c.toNat ∧ c.toNat ≤ 122) ∨
  [33, 35, 36, 37, 38, 39, 42, 43, 45, 46, 94, 95, 96, 124, 126].contains c.toNat

/-- Case-transforming loop of `textproto.CanonicalMIMEHeaderKey`: upper-case
the first byte and every byte after a `'-'`, lower-case the rest. -/
def canonicalKeyLoop : List Char → Bool → List Char
  | [], _ => []
  | c :: rest, upper =>
    (if upper then asciiUpper c else asciiLower c) :: canonicalKeyLoop rest (c = '-')

/-- Go `textproto.CanonicalMIMEHeaderKey`: canonicalize valid tokens, return
invalid ones unchanged. -/
def canonicalMIMEHeaderKey (s : GoStr) : GoStr :=
  if s.all validHeaderFieldByte then canonicalKeyLoop s true else s

/-- The `net/http.Header` model: canonical key to value list. -/
def Headers := GoStr → Option (List GoStr)

/-- An empty header map (`make(http.Header)`). -/
def emptyHeaders : Headers := fun _ => none

/-- Go `Header.Set`: replace the values under the canonicalized key. -/
def headerSet (h : Headers) (k v : GoStr) : Headers :=
  fun k' => if k' = canonicalMIMEHeaderKey k then some [v] else h k'

/-- Go `Header.Get`: first stored value under the canonicalized key, or `""`. -/
def headerGet (h : Headers) (k : GoStr) : GoStr :=
  match h (canonicalMIMEHeaderKey k) with
  | some (v :: _) => v
  | _ => []

example : canonicalMIMEHeaderKey (gs "x-playback-proxy") = gs "X-Playback-Proxy" := by decide
example : canonicalMIMEHeaderKey (gs "content-type") = gs "Content-Type" := by decide

/-! ## Charset detection and conversion (charset.go)

The `regexp` scans over HTML/CSS bodies and the `golang.org/x/text`
transcoders are external; they are the fields of `CharsetExternals`.  The
byte-window truncation, the lower-casing of scan results, the charset-name
table and all control flow are the repository's own code and are embedded. -/

/-- The encodings known to `getEncodingByName` (values of the
`golang.org/x/text` table in charset.go). -/
inductive CharsetEnc
  | utf8 | utf16 | utf16be | utf16le
  | shiftJIS | eucJP | iso2022JP
  | eucKR
  | gb18030 | gbk | big5
  | iso8859_1 | iso8859_2 | iso8859_15
  | windows1252 | windows1251
deriving DecidableEq

/-- External collaborators of charset.go. -/
structure CharsetExternals where
  /-- `htmlMetaCharsetRegex.FindSubmatch`: first capture, or empty. -/
  htmlCharsetScan : List Nat → GoStr
  /-- `cssCharsetRegex.FindSubmatch`: first capture, or empty. -/
  cssCharsetScan : List Nat → GoStr
  /-- an `x/text` decoder transform (charset to UTF-8). -/
  decodeToUTF8 : CharsetEnc → List Nat → Except GoStr (List Nat)
  /-- an `x/text` encoder transform (UTF-8 to charset). -/
  encodeFromUTF8 : CharsetEnc → List Nat → Except GoStr (List Nat)

/-- `getEncodingByName`: charset label to encoding, `none` for unknown labels. -/
def getEncodingByName (name : GoStr) : Option CharsetEnc :=
  let n := goToLower name
  if n = gs "utf-8" ∨ n = gs "utf8" then some .utf8
  else if n = gs "utf-16" ∨ n = gs "utf16" then some .utf16
  else if n = gs "utf-16be" ∨ n = gs "utf16be" then some .utf16be
  else if n = gs "utf-16le" ∨ n = gs "utf16le" then some .utf16le
  else if n = gs "shift_jis" ∨ n = gs "shift-jis" ∨ n = gs "sjis" ∨ n = gs "ms_kanji" then
    some .shiftJIS
  else if n = gs "euc-jp" ∨ n = gs "eucjp" then some .eucJP
  else if n = gs "iso-2022-jp" ∨ n = gs "iso2022jp" then some .iso2022JP
  else if n = gs "euc-kr" ∨ n = gs "euckr" then some .eucKR
  else if n = gs "gb2312" ∨ n = gs "gb-2312" then some .gb18030  -- GB18030 superset
  else if n = gs "gb18030" ∨ n = gs "gb-18030" then some .gb18030
  else if n = gs "gbk" then some .gbk
  else if n = gs "big5" ∨ n = gs "big-5" then some .big5
  else if n = gs "iso-8859-1" ∨ n = gs "iso8859-1" ∨ n = gs "latin1" then some .iso8859_1
  else if n = gs "iso-8859-2" ∨ n = gs "iso8859-2" ∨ n = gs "latin2" then some .iso8859_2
  else if n = gs "iso-8859-15" ∨ n = gs "iso8859-15" then some .iso8859_15
  else if n = gs "windows-1252" ∨ n = gs "cp1252" then some .windows1252
  else if n = gs "windows-1251" ∨ n = gs "cp1251" then some .windows1251
  else none

/-- `isHTMLContent`. -/
def isHTMLContent (contentType : GoStr) : Bool :=
  containsSub (goToLower contentType) (gs "text/html")

/-- `isCSSContent`. -/
def isCSSContent (contentType : GoStr) : Bool :=
  containsSub (goToLower contentType) (gs "text/css")

/-- `detectHTMLCharset`: scan the first 1024 bytes, lower-case the capture. -/
def detectHTMLCharset (ext : CharsetExternals) (body : List Nat) : GoStr :=
  goToLower (ext.htmlCharsetScan (body.take 1024))

/-- `detectCSSCharset`: scan the first 512 bytes, lower-case the capture. -/
def detectCSSCharset (ext : CharsetExternals) (body : List Nat) : GoStr :=
  goToLower (ext.cssCharsetScan (body.take 512))

/-- `detectCharset`: HTTP charset from the `Content-Type` value plus a body
charset for HTML/CSS content. -/
def detectCharset (ext : CharsetExternals) (contentType : GoStr) (body : List Nat) :
    GoStr × GoStr :=
  let httpCharset :=
    if contentType ≠ [] then
      match goIndexSub (goToLower contentType) (gs "charset=") with
      | some idx =>
        let cs0 := contentType.drop (idx + 8)
        let cs1 := match goIndexSub cs0 [';'] with
                   | some j => cs0.take j
                   | none => cs0
        let cs2 := goTrimCutset cs1 (gs " \"'")
        if cs2 ≠ [] then cs2 else []
      | none => []
    else []
  let contentCharset :=
    if isHTMLContent contentType then detectHTMLCharset ext body
    else if isCSSContent contentType then detectCSSCharset ext body
    else []
  (httpCharset, contentCharset)

/-- `convertToUTF8`. -/
def convertToUTF8 (ext : CharsetExternals) (content : List Nat) (fromCharset : GoStr) :
    Except GoStr (List Nat) :=
  if fromCharset = [] ∨ goToLower fromCharset = gs "utf-8" then .ok content
  else
    match getEncodingByName fromCharset with
    | none => .error (gs "unsupported charset: " ++ fromCharset)
    | some enc =>
      match ext.decodeToUTF8 enc content with
      | .ok r => .ok r
      | .error e => .error (gs "failed to convert to UTF-8: " ++ e)

/-- `convertFromUTF8`. -/
def convertFromUTF8 (ext : CharsetExternals) (content : List Nat) (toCharset : GoStr) :
    Except GoStr (List Nat) :=
  if toCharset = [] ∨ goToLower toCharset = gs "utf-8" then .ok content
  else
    match getEncodingByName toCharset with
    | none => .error (gs "unsupported charset: " ++ toCharset)
    | some enc =>
      match ext.encodeFromUTF8 enc content with
      | .ok r => .ok r
      | .error e => .error (gs "failed to convert from UTF-8: " ++ e)

/-- `processCharsetForRecording`: result is
`(processedBody, httpCharset, contentCharset, error)`; a failed conversion
keeps the original bytes and appends `-failed`, surfacing no error. -/
def processCharsetForRecording (ext : CharsetExternals) (contentType : GoStr)
    (body : List Nat) : List Nat × GoStr × GoStr × Option GoStr :=
  let det := detectCharset ext contentType body
  let finalCharset := if det.2 = [] then det.1 else det.2
  if finalCharset = [] ∨ goToLower finalCharset = gs "utf-8" then
    (body, det.1, finalCharset, none)
  else
    match convertToUTF8 ext body finalCharset with
    | .ok pb => (pb, det.1, finalCharset, none)
    | .error _ => (body, det.1, finalCharset ++ gs "-failed", none)

/-- ASCII whitespace, for Go `strings.TrimSpace`. -/
def isSpaceByte (c : Char) : Bool := [32, 9, 10, 11, 12, 13].contains c.toNat

/-- Go `strings.TrimSpace` (ASCII fragment). -/
def goTrimSpace (s : GoStr) : GoStr :=
  ((s.dropWhile isSpaceByte).reverse.dropWhile isSpaceByte).reverse

/-- The inline `Content-Type` rewrite of charset.go / persistence.go: drop an
existing `charset=` parameter and append `charset=<cs>`. -/
def rewriteContentTypeCharset (contentType cs : GoStr) : GoStr :=
  let ct1 :=
    match goIndexSub (goToLower contentType) (gs "charset=") with
    | some idx =>
      let before := contentType.take idx
      let after := contentType.drop idx
      let after := match goIndexSub after [';'] with
                   | some semiIdx => after.drop semiIdx
                   | none => []
      goTrimSpace before ++ after
    | none => contentType
  let ct2 := if ¬ goHasSuf ct1 (gs ";") ∧ ct1 ≠ [] then ct1 ++ gs "; " else ct1
  ct2 ++ gs "charset=" ++ cs

/-- `processCharsetForPlayback`: returns the wire body together with the
(possibly rewritten) headers. -/
def processCharsetForPlayback (ext : CharsetExternals) (body : List Nat)
    (contentCharset : GoStr) (headers : Headers) : Except GoStr (List Nat × Headers) :=
  if contentCharset = [] ∨ goToLower contentCharset = gs "utf-8" then .ok (body, headers)
  else if goHasSuf contentCharset (gs "-failed") then .ok (body, headers)
  else
    match convertFromUTF8 ext body contentCharset with
    | .error e => .error (gs "failed to restore charset: " ++ e)
    | .ok result =>
      let contentType := headerGet headers (gs "Content-Type")
      if contentType ≠ [] then
        .ok (result, headerSet headers (gs "Content-Type")
                       (rewriteContentTypeCharset contentType contentCharset))
      else .ok (result, headers)

/-- Inert externals for concrete evaluations: the regex scans find nothing and
the transcoders reject everything. -/
def nullCharsetExternals : CharsetExternals :=
  { htmlCharsetScan := fun _ => []
    cssCharsetScan := fun _ => []
    decodeToUTF8 := fun _ _ => .error (gs "no transform")
    encodeFromUTF8 := fun _ _ => .error (gs "no transform") }

example : (detectCharset nullCharsetExternals (gs "text/html; charset=UTF-8") []).1 =
    gs "UTF-8" := by rfl
example : (detectCharset nullCharsetExternals (gs "text/html; charset=\"shift_jis\"; x=y")
    []).1 = gs "shift_jis" := by rfl
example : (processCharsetForRecording nullCharsetExternals
    (gs "text/html; charset=shift_jis") []) =
    ([], gs "shift_jis", gs "shift_jis-failed", none) := by rfl

/-! ## Inventory data model (pkg/types) and persistence (pkg/inventory)

`time.Time` instants are absolute nanosecond counts (`Int`); `float64`
arithmetic is exact rational, and each Go conversion `time.Duration(f)` of a
(non-negative) `float64` truncates to an integer nanosecond count, modelled
as `Int.floor`. -/

/-- `types.Resource` (fields relevant to the verified behaviour). -/
structure Resource where
  method : GoStr
  url : GoStr
  ttfbMS : Int
  mbps : Option ℚ
  statusCode : Option Int
  errorMessage : Option GoStr
  rawHeaders : List (GoStr × GoStr)
  contentEncoding : Option GoStr
  contentTypeMime : Option GoStr
  contentTypeCharset : Option GoStr
  contentCharset : Option GoStr
  contentFilePath : Option GoStr
  contentUTF8 : Option GoStr
  contentBase64 : Option GoStr
  minify : Option Bool
  timestamp : Int

/-- The `fmt.Sprintf("%s:%s", Method, URL)` dedup key. -/
def resourceKey (r : Resource) : GoStr := r.method ++ ':' :: r.url

/-- The dedup condition of `SaveRecordedTransactionsWithOptions` /
`AppendRecordedTransaction`:
`resource.Timestamp.After(existing.Timestamp) || (resource.MBPS != nil &&
*resource.MBPS > 0 && (existing.MBPS == nil || *existing.MBPS == 0))`. -/
def replaceCond (incoming existing : Resource) : Bool :=
  decide (existing.timestamp < incoming.timestamp) ||
  (match incoming.mbps with
   | some m =>
     decide (0 < m) &&
     (match existing.mbps with
      | none => true
      | some em => decide (em = 0))
   | none => false)

/-- One step of the `resourceMap` deduplication in
`SaveRecordedTransactionsWithOptions`: keep the map keyed by method:URL,
replacing an existing entry only when `replaceCond` holds. -/
def resourceMapStep (map : GoStr → Option Resource) (r : Resource) :
    GoStr → Option Resource :=
  let key := resourceKey r
  match map key with
  | some existing =>
    if replaceCond r existing then fun k => if k = key then some r else map k
    else map
  | none => fun k => if k = key then some r else map k

/-- The update loop of `AppendRecordedTransaction`: replace the first entry
with the same key when `replaceCond` holds, return the list unchanged when it
does not (Go returns early, discarding the incoming resource), and append at
the end when no entry matches. -/
def appendResourceList : List Resource → Resource → List Resource
  | [], r => [r]
  | e :: rest, r =>
    if resourceKey e = resourceKey r then
      if replaceCond r e then r :: rest else e :: rest
    else e :: appendResourceList rest r

/-- `types.BodyChunk`. The Go struct also carries an absolute wall-clock
`TargetTime` (recalculated during playback and unused by the replayer once
`TargetOffset` is set); only the request-relative `TargetOffset` is modelled. -/
structure BodyChunk where
  chunk : List Nat
  targetOffset : ℚ

/-- The chunk-emission loop of `createBodyChunks`: slices of `chunkSize`
bytes; a slice ending at byte `e` gets
`chunkTime = time.Duration(float64(totalTransferTime) * chunkProgress)` —
truncation of the non-negative product to whole nanoseconds — and is due at
`time.Duration(TTFBMS)*time.Millisecond + chunkTime`.  Go guarantees a
positive chunk size (`NewPlaybackManager` sets 16 KiB and `SetChunkSize`
refuses other values); the `0 < chunkSize` conjunct makes the recursion
well-founded. -/
def createBodyChunksLoop (body : List Nat) (totalSize chunkSize : Nat) (ttt : Int)
    (ttfbMS : Int) (i : Nat) : List BodyChunk :=
  if _h : i < totalSize ∧ 0 < chunkSize then
    let e := min (i + chunkSize) totalSize
    let chunkProgress : ℚ := (e : ℚ) / (totalSize : ℚ)
    let chunkTime : Int := ⌊(ttt : ℚ) * chunkProgress⌋
    { chunk := (body.drop i).take (e - i),
      targetOffset := ((ttfbMS * 1000000 + chunkTime : Int) : ℚ) } ::
      createBodyChunksLoop body totalSize chunkSize ttt ttfbMS e
  else []
termination_by totalSize - i
decreasing_by
  have h1 : i + 1 ≤ min (i + chunkSize) totalSize := by omega
  omega

/-- `PlaybackManager.createBodyChunks`: empty bodies produce no chunks; the
total transfer time comes from `MBPS` when positive — where
`time.Duration(totalSeconds * float64(time.Second))` truncates the exact
nanosecond count to an integer — else it is exactly 100 ms. -/
def createBodyChunks (chunkSize : Nat) (body : List Nat) (resource : Resource) :
    List BodyChunk :=
  if body = [] then []
  else
    let totalSize := body.length
    let totalTransferTime : Int :=
      match resource.mbps with
      | some m =>
        if 0 < m then ⌊((totalSize * 8 : Nat) : ℚ) / (m * 1024 * 1024) * 1000000000⌋
        else 100 * 1000000
      | none => 100 * 1000000
    createBodyChunksLoop body totalSize chunkSize totalTransferTime resource.ttfbMS 0

/-- The default chunk size of `NewPlaybackManager` (16 KiB). -/
def defaultChunkSize : Nat := 16 * 1024

/-! ## Replayer (pkg/plugins/playback.go)

Wall-clock time is a rational nanosecond count.  `time.Now()` readings taken
at the top of each chunk iteration are an arbitrary function `now` of the
iteration index, and `time.Sleep(d)` is recorded as the slept duration, so the
pacing behaviour is verified for every possible passage of real time. -/

/-- `types.PlaybackTransaction`. -/
structure PlaybackTransaction where
  method : GoStr
  url : GoStr
  ttfb : ℚ
  statusCode : Option Int
  errorMessage : Option GoStr
  rawHeaders : List (GoStr × GoStr)
  chunks : List BodyChunk

/-- `proxy.Response`. -/
structure ProxyResponse where
  statusCode : Int
  header : Headers
  body : List Nat

/-- The per-chunk send deadline of `playbackTransaction`: the recorded
`TargetOffset` when positive, otherwise the back-compat fallback
(`TTFB` for chunk 0, `TTFB + i·50ms` afterwards). -/
def chunkTargetOffset (t : PlaybackTransaction) (i : Nat) (c : BodyChunk) : ℚ :=
  if 0 < c.targetOffset then c.targetOffset
  else if i = 0 then t.ttfb
  else t.ttfb + (i : ℚ) * 50 * 1000000

/-- The chunk loop of `playbackTransaction`: waits until the per-chunk
deadline when it is still ahead (recording the sleep), emits the chunk either
way, and accumulates the body.  Returns `(body, sleeps)`. -/
def playbackChunksLoop (t : PlaybackTransaction) (startTime : ℚ) (now : Nat → ℚ) :
    List BodyChunk → Nat → List Nat × List ℚ
  | [], _ => ([], [])
  | c :: rest, i =>
    let targetSendTime := startTime + chunkTargetOffset t i c
    let wait := if now i < targetSendTime then targetSendTime - now i else 0
    let r := playbackChunksLoop t startTime now rest (i + 1)
    (c.chunk ++ r.1, wait :: r.2)

/-- `PlaybackPlugin.playbackTransaction`: status from the transaction
(default 200), stored headers plus `x-playback-proxy: 1`, body assembled from
the chunks.  Returns the synthesized response and the sleeps performed. -/
def playbackTransaction (t : PlaybackTransaction) (startTime : ℚ) (now : Nat → ℚ) :
    ProxyResponse × List ℚ :=
  let statusCode : Int := match t.statusCode with | some sc => sc | none => 200
  let hdr := t.rawHeaders.foldl (fun h kv => headerSet h kv.1 kv.2) emptyHeaders
  let hdr := headerSet hdr (gs "x-playback-proxy") (gs "1")
  if 0 < t.chunks.length then
    let r := playbackChunksLoop t startTime now t.chunks 0
    ({ statusCode := statusCode, header := hdr, body := r.1 }, r.2)
  else
    ({ statusCode := statusCode, header := hdr, body := [] }, [])

/-- The upstream `http.Transport` configuration of
`NewPlaybackPluginWithInventoryDir` (idle timeout in nanoseconds). -/
structure UpstreamTransportConfig where
  maxIdleConns : Nat
  idleConnTimeout : ℚ
  disableCompression : Bool

/-- The transport literal of `NewPlaybackPluginWithInventoryDir`. -/
def newPlaybackUpstreamTransport : UpstreamTransportConfig :=
  { maxIdleConns := 100
    idleConnTimeout := 90 * 1000000000
    disableCompression := true }

/-- Go `[]byte(message)`. -/
def strBytes (s : GoStr) : List Nat := s.map Char.toNat

/-- `PlaybackPlugin.createErrorResponse`: the given status, a plain-text
content type, and the message as body. -/
def createErrorResponse (statusCode : Int) (message : GoStr) : ProxyResponse :=
  { statusCode := statusCode
    header := headerSet emptyHeaders (gs "Content-Type") (gs "text/plain")
    body := strBytes message }

/-- The observable outcome of one upstream exchange: status, headers, and the
result of reading the body (`io.ReadAll`). -/
structure UpstreamResult where
  statusCode : Int
  header : Headers
  bodyRead : Except GoStr (List Nat)

/-- `PlaybackPlugin.proxyUpstream`, parameterized over the external
`http.NewRequest` outcome and the external round trip `client.Do`:
build failure yields 500, transport failure 502, body-read failure 502,
success forwards status, headers and body verbatim. -/
def proxyUpstream {Req : Type} (newRequest : Except GoStr Req)
    (doRequest : Req → Except GoStr UpstreamResult) : ProxyResponse :=
  match newRequest with
  | .error e => createErrorResponse 500 (gs "Failed to create upstream request: " ++ e)
  | .ok req =>
    match doRequest req with
    | .error e => createErrorResponse 502 (gs "Upstream request failed: " ++ e)
    | .ok resp =>
      match resp.bodyRead with
      | .error e => createErrorResponse 502 (gs "Failed to read upstream response: " ++ e)
      | .ok body => { statusCode := resp.statusCode, header := resp.header, body := body }

/-- `PlaybackPlugin.Request`: look the flow up under `"<METHOD>:<URL>"`; replay
on a hit, forward upstream on a miss (no pacing sleeps on the miss path). -/
def playbackRequest {Req : Type} (tmap : GoStr → Option PlaybackTransaction)
    (method url : GoStr) (startTime : ℚ) (now : Nat → ℚ)
    (newRequest : Except GoStr Req)
    (doRequest : Req → Except GoStr UpstreamResult) : ProxyResponse × List ℚ :=
  match tmap (method ++ ':' :: url) with
  | some t => playbackTransaction t startTime now
  | none => (proxyUpstream newRequest doRequest, [])

/-! ## Content-encoding codec (pkg/encoding)

The six wire formats are produced/consumed by external libraries
(`compress/gzip`, `compress/flate`, `compress/lzw`, `andybalholm/brotli`,
`klauspost/compress/zstd`); the repository's code normalizes compression
levels, dispatches on the encoding tag and wires encoder and decoder of the
same tag together.  `CodecLib` packages the external primitives. -/

/-- External compression primitives.  Encoding into a `bytes.Buffer` cannot
fail in Go, so the encoders are total; decoders are partial. -/
structure CodecLib where
  gzipEncode : Int → List Nat → List Nat
  gzipDecode : List Nat → Except GoStr (List Nat)
  flateEncode : Int → List Nat → List Nat
  flateDecode : List Nat → Except GoStr (List Nat)
  lzwEncode : List Nat → List Nat
  lzwDecode : List Nat → Except GoStr (List Nat)
  brotliEncode : Int → List Nat → List Nat
  brotliDecode : List Nat → Except GoStr (List Nat)
  zstdEncode : Int → List Nat → List Nat
  zstdDecode : List Nat → Except GoStr (List Nat)

/-- `NewGzipEncoder`: levels outside 1..9 fall back to
`gzip.DefaultCompression` (-1). -/
def newGzipEncoderLevel (level : Int) : Int :=
  if level < 1 ∨ 9 < level then -1 else level

/-- `NewDeflateEncoder`: levels outside -2..9 fall back to
`flate.DefaultCompression` (-1). -/
def newDeflateEncoderLevel (level : Int) : Int :=
  if level < -2 ∨ 9 < level then -1 else level

/-- `NewBrotliEncoder`: levels outside 0..11 fall back to 6. -/
def newBrotliEncoderLevel (level : Int) : Int :=
  if level < 0 ∨ 11 < level then 6 else level

/-- `EncodeData` composed with `CreateEncoder`: normalize the level, dispatch
on the tag, reject unknown tags. -/
def encodeData (lib : CodecLib) (data : List Nat) (tag : GoStr) (level : Int) :
    Except GoStr (List Nat) :=
  if tag = gs "gzip" then .ok (lib.gzipEncode (newGzipEncoderLevel level) data)
  else if tag = gs "deflate" then .ok (lib.flateEncode (newDeflateEncoderLevel level) data)
  else if tag = gs "compress" then .ok (lib.lzwEncode data)
  else if tag = gs "br" then .ok (lib.brotliEncode (newBrotliEncoderLevel level) data)
  else if tag = gs "zstd" then .ok (lib.zstdEncode level data)
  else if tag = gs "identity" then .ok data
  else .error (gs "unsupported encoding type: " ++ tag)

/-- `DecodeData` composed with `CreateDecoder`. -/
def decodeData (lib : CodecLib) (data : List Nat) (tag : GoStr) :
    Except GoStr (List Nat) :=
  if tag = gs "gzip" then lib.gzipDecode data
  else if tag = gs "deflate" then lib.flateDecode data
  else if tag = gs "compress" then lib.lzwDecode data
  else if tag = gs "br" then lib.brotliDecode data
  else if tag = gs "zstd" then lib.zstdDecode data
  else if tag = gs "identity" then .ok data
  else .error (gs "unsupported encoding type: " ++ tag)

/-- A trivial codec library (copying "compressors") used to instantiate the
round-trip theorem on concrete data. -/
def copyCodecLib : CodecLib :=
  { gzipEncode := fun _ b => b, gzipDecode := .ok
    flateEncode := fun _ b => b, flateDecode := .ok
    lzwEncode := fun b => b, lzwDecode := .ok
    brotliEncode := fun _ b => b, brotliDecode := .ok
    zstdEncode := fun _ b => b, zstdDecode := .ok }

/-! ## Content optimizer (optimize.go)

The minification engine (`tdewolff/minify`), the HTML beautifier (`gohtml`)
and the JS beautifier (`jsbeautifier-go`) are external (`OptimizerLib`); the
CSS formatter `formatCSS` is the repository's own code and is embedded. -/

/-- `OptimizationOptions`. -/
structure OptimizationOptions where
  type : GoStr
  contentType : GoStr
  indentSize : Int
  indentChar : GoStr
  braceStyle : GoStr
  addLineNumbers : Bool

/-- `DefaultOptimizationOptions`. -/
def defaultOptimizationOptions : OptimizationOptions :=
  { type := gs "minify"
    contentType := gs "text/html"
    indentSize := 2
    indentChar := gs " "
    braceStyle := gs "collapse"
    addLineNumbers := false }

/-- External optimization engines. -/
structure OptimizerLib where
  /-- `minify.M.Minify(contentType, dst, src)`. -/
  minifyFn : GoStr → GoStr → Except GoStr GoStr
  /-- `gohtml.Format`. -/
  gohtmlFormat : GoStr → GoStr
  /-- `gohtml.FormatWithLineNo`. -/
  gohtmlFormatWithLineNo : GoStr → GoStr
  /-- `jsbeautifier.Beautify` with `(indent_size, indent_char, brace_style)`. -/
  jsbeautify : Int → GoStr → GoStr → GoStr → Except GoStr GoStr

/-- The opening-brace byte (123). -/
def lbraceChar : Char := Char.ofNat 123

/-- The closing-brace byte (125). -/
def rbraceChar : Char := Char.ofNat 125

/-- Go `strings.Repeat` for the non-negative counts reached by `formatCSS`
(Go panics on negative counts; modelled as empty, no verified path reaches
it). -/
def goRepeat (s : GoStr) (n : Int) : GoStr :=
  match n with
  | .ofNat m => (List.replicate m s).flatten
  | .negSucc _ => []

/-- The until-fixed-point `ReplaceAll(content, "  ", " ")` loop of
`formatCSS`: its fixed point collapses every run of spaces to one space. -/
def squeezeSpaces : List Char → List Char
  | [] => []
  | [c] => [c]
  | c :: d :: rest =>
    if c = ' ' ∧ d = ' ' then squeezeSpaces (d :: rest)
    else c :: squeezeSpaces (d :: rest)

/-- The until-fixed-point `ReplaceAll(formatted, "\n\n\n", "\n\n")` loop of
`formatCSS`: its fixed point collapses every run of newlines to at most two. -/
def squeezeNewlines : List Char → List Char
  | a :: b :: c :: rest =>
    if a = '\n' ∧ b = '\n' ∧ c = '\n' then squeezeNewlines (b :: c :: rest)
    else a :: squeezeNewlines (b :: c :: rest)
  | l => l

/-- The byte-switch loop of `formatCSS`; `prev` and the head of the remaining
input model Go's `content[i-1]` / `content[i+1]` lookahead. -/
def formatCSSLoop (indent : GoStr) :
    List Char → Option Char → Bool → Bool → Int → GoStr
  | [], _, _, _, _ => []
  | c :: rest, prev, inComment, commentStart, lvl =>
    if c = '/' then
      let commentStart := if rest.head? = some '*' then true else commentStart
      c :: formatCSSLoop indent rest (some c) inComment commentStart lvl
    else if c = '*' then
      let inComment := if commentStart then true else inComment
      let commentStart := if commentStart then false else commentStart
      let inComment := if rest.head? = some '/' then false else inComment
      c :: formatCSSLoop indent rest (some c) inComment commentStart lvl
    else if c = lbraceChar then
      if ¬ inComment then
        (gs " " ++ [lbraceChar] ++ gs "\n" ++ goRepeat indent (lvl + 1)) ++
          formatCSSLoop indent rest (some c) inComment commentStart (lvl + 1)
      else c :: formatCSSLoop indent rest (some c) inComment commentStart lvl
    else if c = rbraceChar then
      if ¬ inComment then
        (gs "\n" ++ goRepeat indent (lvl - 1) ++ [rbraceChar] ++ gs "\n" ++
          (if 0 < lvl - 1 then goRepeat indent (lvl - 1) else [])) ++
          formatCSSLoop indent rest (some c) inComment commentStart (lvl - 1)
      else c :: formatCSSLoop indent rest (some c) inComment commentStart lvl
    else if c = ';' then
      if ¬ inComment then
        (gs ";\n" ++ goRepeat indent lvl) ++
          formatCSSLoop indent rest (some c) inComment commentStart lvl
      else c :: formatCSSLoop indent rest (some c) inComment commentStart lvl
    else if c = ' ' then
      (match prev with
       | some p =>
         if p ≠ lbraceChar ∧ p ≠ ';' ∧ p ≠ rbraceChar then [c] else []
       | none => []) ++
        formatCSSLoop indent rest (some c) inComment commentStart lvl
    else
      c :: formatCSSLoop indent rest (some c) inComment commentStart lvl

/-- `ContentOptimizer.formatCSS`. -/
def formatCSS (content indentChar : GoStr) (indentSize : Int) : GoStr :=
  let indent := goRepeat indentChar indentSize
  let content := content.map fun c => if c = '\n' ∨ c = '\r' then ' ' else c
  let content := squeezeSpaces content
  let formatted := formatCSSLoop indent content none false false 0
  squeezeNewlines (goTrimSpace formatted)

/-- `ContentOptimizer.minifyContent`. -/
def minifyContent (lib : OptimizerLib) (content : GoStr) (contentType : GoStr) :
    Except GoStr GoStr :=
  match lib.minifyFn contentType content with
  | .ok r => .ok r
  | .error e => .error (gs "minification failed: " ++ e)

/-- The brace-style mapping inside `beautifyJavaScript` (unknown styles fall
back to `collapse`). -/
def mapBraceStyle (bs : GoStr) : GoStr :=
  if bs = gs "expand" then gs "expand"
  else if bs = gs "collapse" then gs "collapse"
  else if bs = gs "end-expand" then gs "end-expand"
  else gs "collapse"

/-- `ContentOptimizer.beautifyContent`: dispatch on the content type; anything
outside HTML/CSS/JavaScript is an error. -/
def beautifyContent (lib : OptimizerLib) (content : GoStr)
    (options : OptimizationOptions) : Except GoStr GoStr :=
  if options.contentType = gs "text/html" then
    .ok (if options.addLineNumbers then lib.gohtmlFormatWithLineNo content
         else lib.gohtmlFormat content)
  else if options.contentType = gs "text/css" then
    .ok (formatCSS content options.indentChar options.indentSize)
  else if options.contentType = gs "text/javascript" then
    match lib.jsbeautify options.indentSize options.indentChar
        (mapBraceStyle options.braceStyle) content with
    | .ok r => .ok r
    | .error e => .error (gs "JavaScript beautification failed: " ++ e)
  else
    .error (gs "unsupported content type for beautification: " ++ options.contentType)

/-- `ContentOptimizer.OptimizeContent`. -/
def optimizeContent (lib : OptimizerLib) (content : GoStr)
    (options : OptimizationOptions) : Except GoStr GoStr :=
  if options.type = gs "minify" then minifyContent lib content options.contentType
  else if options.type = gs "beautify" then beautifyContent lib content options
  else .error (gs "unsupported optimizer type: " ++ options.type)

/-- `ContentOptimizer.OptimizeByMimeType`: substring-match the MIME type to
pick a content type; unsupported MIME types are returned unchanged with no
error. -/
def optimizeByMimeType (lib : OptimizerLib) (content mimeType optimizerType : GoStr) :
    Except GoStr GoStr :=
  let options := { defaultOptimizationOptions with type := optimizerType }
  if containsSub mimeType (gs "html") then
    optimizeContent lib content { options with contentType := gs "text/html" }
  else if containsSub mimeType (gs "css") then
    optimizeContent lib content { options with contentType := gs "text/css" }
  else if containsSub mimeType (gs "javascript") ∨ containsSub mimeType (gs "ecmascript") then
    optimizeContent lib content { options with contentType := gs "text/javascript" }
  else
    .ok content

/-- Inert optimizer engines for concrete evaluations. -/
def nullOptimizerLib : OptimizerLib :=
  { minifyFn := fun _ c => .ok c
    gohtmlFormat := fun c => c
    gohtmlFormatWithLineNo := fun c => c
    jsbeautify := fun _ _ _ c => .ok c }

example : optimizeByMimeType nullOptimizerLib (gs "abc") (gs "image/png")
    (gs "beautify") = .ok (gs "abc") := by rfl
example : optimizeByMimeType nullOptimizerLib (gs "abc") (gs "image/png")
    (gs "minify") = .ok (gs "abc") := by rfl
example : beautifyContent nullOptimizerLib (gs "abc")
    { defaultOptimizationOptions with contentType := gs "image/png" } =
    .error (gs "unsupported content type for beautification: image/png") := by rfl

/-! ## Proof infrastructure for the chunk planner -/

/-- The list of slice end offsets walked by `createBodyChunksLoop`. -/
def chunkEnds (ts cs i : Nat) : List Nat :=
  if _h : i < ts ∧ 0 < cs then
    min (i + cs) ts :: chunkEnds ts cs (min (i + cs) ts)
  else []
termination_by ts - i
decreasing_by omega

theorem createBodyChunksLoop_offsets (body : List Nat) (ts cs : Nat) (ttt : Int)
    (ttfb : Int) (i : Nat) :
    (createBodyChunksLoop body ts cs ttt ttfb i).map BodyChunk.targetOffset =
      (chunkEnds ts cs i).map
        (fun (e : Nat) =>
          ((ttfb * 1000000 + ⌊(ttt : ℚ) * ((e : ℚ) / (ts : ℚ))⌋ : Int) : ℚ)) := by
  rw [createBodyChunksLoop, chunkEnds]
  split
  · simpa using createBodyChunksLoop_offsets body ts cs ttt ttfb (min (i + cs) ts)
  · simp
termination_by ts - i
decreasing_by omega

theorem chunkEnds_chain (ts cs i : Nat) :
    List.Chain' (· < ·) (i :: chunkEnds ts cs i) := by
  rw [chunkEnds]
  split
  · rename_i h
    have := chunkEnds_chain ts cs (min (i + cs) ts)
    exact List.Chain'.cons (by omega) this
  · simp
termination_by ts - i
decreasing_by omega

theorem chunkEnds_getLast (ts cs i : Nat) (h : i < ts) (hcs : 0 < cs) :
    (chunkEnds ts cs i).getLast? = some ts := by
  rw [chunkEnds]
  rw [dif_pos ⟨h, hcs⟩]
  by_cases he : min (i + cs) ts < ts
  · have := chunkEnds_getLast ts cs (min (i + cs) ts) he hcs
    rw [List.getLast?_cons, this]
    rfl
  · have hmin : min (i + cs) ts = ts := by omega
    rw [hmin]
    rw [chunkEnds]
    rw [dif_neg (by omega)]
    simp
termination_by ts - i
decreasing_by omega

/-- The body-transfer duration of the specification, in nanoseconds:
`T = (8·N) / (Mbps · 1024·1024)` seconds for a positive `Mbps`, else 100 ms. -/
def specTransferTimeNS (n : Nat) (mbps : Option ℚ) : ℚ :=
  match mbps with
  | some m => if 0 < m then (8 * n : ℚ) / (m * 1024 * 1024) * 1000000000 else 100000000
  | none => 100000000

theorem specTransferTimeNS_pos (n : Nat) (mbps : Option ℚ) (hn : 0 < n) :
    0 < specTransferTimeNS n mbps := by
  cases mbps with
  | none => simp [specTransferTimeNS]
  | some m =>
    by_cases hm : 0 < m
    · simp only [specTransferTimeNS, if_pos hm]
      have hnQ : (0 : ℚ) < (n : ℚ) := by exact_mod_cast hn
      have h1 : (0 : ℚ) < 8 * n := by linarith
      have h2 : (0 : ℚ) < m * 1024 * 1024 := by nlinarith
      exact mul_pos (div_pos h1 h2) (by norm_num)
    · simp only [specTransferTimeNS, if_neg hm]
      norm_num

/-- A resource whose positive `MBPS` (2^30) makes the exact transfer time of
a two-byte body a sub-nanosecond fraction. -/
def truncResource : Resource :=
  { method := gs "GET", url := gs "https://example.com/t"
    ttfbMS := 0, mbps := some 1073741824, statusCode := some 200
    errorMessage := none, rawHeaders := [], contentEncoding := none
    contentTypeMime := none, contentTypeCharset := none, contentCharset := none
    contentFilePath := none, contentUTF8 := none, contentBase64 := none
    minify := none, timestamp := 0 }

/-- C2 counterexample to the unamended claim: with a positive `Mbps` of
2^30, the Go conversion `time.Duration(totalSeconds * float64(time.Second))`
truncates the sub-nanosecond exact transfer time to zero, so for a two-byte
body split into one-byte chunks both target offsets collapse to the TTFB —
the offsets are not strictly increasing and the final offset is not the
exact `TTFB + T`. -/
theorem createBodyChunks_duration_truncation :
    (createBodyChunks 1 [0, 0] truncResource).map BodyChunk.targetOffset = [0, 0] ∧
    ¬ List.Chain' (· < ·)
        ((createBodyChunks 1 [0, 0] truncResource).map BodyChunk.targetOffset) ∧
    ((createBodyChunks 1 [0, 0] truncResource).map BodyChunk.targetOffset).getLast? ≠
      some ((truncResource.ttfbMS : ℚ) * 1000000 +
        specTransferTimeNS 2 truncResource.mbps) := by
  have hends : chunkEnds 2 1 0 = [1, 2] := by
    rw [chunkEnds, dif_pos (by omega)]
    rw [show min (0 + 1) 2 = 1 from by omega]
    rw [chunkEnds, dif_pos (by omega)]
    rw [show min (1 + 1) 2 = 2 from by omega]
    rw [chunkEnds, dif_neg (by omega)]
  have hmap : (createBodyChunks 1 [0, 0] truncResource).map BodyChunk.targetOffset
      = [0, 0] := by
    rw [createBodyChunks]
    rw [if_neg (by decide)]
    dsimp only
    rw [show truncResource.mbps = some (1073741824 : ℚ) from rfl]
    dsimp only
    rw [if_pos (by norm_num)]
    rw [createBodyChunksLoop_offsets]
    rw [show ([0, 0] : List Nat).length = 2 from rfl]
    have h0 : (⌊(((2 : Nat) * 8 : Nat) : ℚ) /
        ((1073741824 : ℚ) * 1024 * 1024) * 1000000000⌋ : Int) = 0 := by
      rw [Int.floor_eq_zero_iff]
      constructor
      · positivity
      · norm_num
    rw [h0, hends]
    rw [show truncResource.ttfbMS = (0 : Int) from rfl]
    simp only [List.map]
    norm_num
  refine ⟨hmap, ?_, ?_⟩
  · rw [hmap]
    simp only [List.chain'_cons]
    norm_num
  · rw [hmap]
    rw [show (([0, 0] : List ℚ)).getLast? = some 0 from rfl]
    rw [show truncResource.mbps = some (1073741824 : ℚ) from rfl,
        show truncResource.ttfbMS = (0 : Int) from rfl]
    simp only [specTransferTimeNS]
    rw [if_pos (by norm_num)]
    norm_num

/-- C2 (corrected): the chunk planner's target offsets are non-decreasing
(not strictly increasing — `time.Duration` truncation can collapse
consecutive offsets), and the final offset is exactly
`time.Duration(TTFBMS)·1ms` plus the truncation `⌊T⌋` of the exact transfer
time to whole nanoseconds, with `T = (8·N)/(Mbps·1024·1024)` seconds for a
positive `Mbps` and 100 ms otherwise. -/
theorem createBodyChunks_timing (chunkSize : Nat) (body : List Nat) (r : Resource)
    (hcs : 0 < chunkSize) (hbody : body ≠ []) :
    List.Chain' (· ≤ ·)
      ((createBodyChunks chunkSize body r).map BodyChunk.targetOffset) ∧
    ((createBodyChunks chunkSize body r).map BodyChunk.targetOffset).getLast? =
      some ((r.ttfbMS * 1000000 +
        ⌊specTransferTimeNS body.length r.mbps⌋ : Int) : ℚ) := by
  have hts : 0 < body.length := List.length_pos.mpr hbody
  unfold createBodyChunks
  rw [if_neg hbody]
  have httt :
      (match r.mbps with
       | some m =>
         if 0 < m then
           ⌊((body.length * 8 : Nat) : ℚ) / (m * 1024 * 1024) * 1000000000⌋
         else (100 : Int) * 1000000
       | none => (100 : Int) * 1000000) = ⌊specTransferTimeNS body.length r.mbps⌋ := by
    cases r.mbps with
    | none =>
      simp only [specTransferTimeNS]
      rw [show (100000000 : ℚ) = ((100000000 : Int) : ℚ) from by norm_num,
        Int.floor_intCast]
      norm_num
    | some m =>
      by_cases hm : 0 < m
      · simp only [specTransferTimeNS, if_pos hm]
        congr 1
        push_cast
        ring
      · simp only [specTransferTimeNS, if_neg hm]
        rw [show (100000000 : ℚ) = ((100000000 : Int) : ℚ) from by norm_num,
          Int.floor_intCast]
        norm_num
  dsimp only
  rw [httt]
  have hTpos : 0 < specTransferTimeNS body.length r.mbps :=
    specTransferTimeNS_pos body.length r.mbps hts
  have httt0 : (0 : ℚ) ≤ ((⌊specTransferTimeNS body.length r.mbps⌋ : Int) : ℚ) := by
    exact_mod_cast Int.floor_nonneg.mpr hTpos.le
  rw [createBodyChunksLoop_offsets]
  have htsQ : (0 : ℚ) < (body.length : ℚ) := by exact_mod_cast hts
  constructor
  · have hchain := (chunkEnds_chain body.length chunkSize 0).tail
    rw [List.chain'_map]
    refine hchain.imp (fun a b hab => ?_)
    have hdiv : (a : ℚ) / (body.length : ℚ) ≤ (b : ℚ) / (body.length : ℚ) := by
      apply le_of_lt
      apply div_lt_div_of_pos_right ?_ htsQ
      exact_mod_cast hab
    have hmul := mul_le_mul_of_nonneg_left hdiv httt0
    have hfl := Int.floor_le_floor hmul
    exact_mod_cast add_le_add_left hfl (r.ttfbMS * 1000000)
  · rw [List.getLast?_map, chunkEnds_getLast body.length chunkSize 0 hts hcs]
    simp only [Option.map_some']
    rw [div_self (ne_of_gt htsQ), mul_one, Int.floor_intCast]

/-- A concrete resource for witnesses: 100 ms TTFB, 8 Mbps. -/
def witnessResource : Resource :=
  { method := gs "GET", url := gs "https://example.com/a.txt"
    ttfbMS := 100, mbps := some 8, statusCode := some 200
    errorMessage := none, rawHeaders := [], contentEncoding := none
    contentTypeMime := none, contentTypeCharset := none, contentCharset := none
    contentFilePath := none, contentUTF8 := none, contentBase64 := none
    minify := none, timestamp := 0 }

/-- Witness for `createBodyChunks_timing` at a concrete body and resource. -/
theorem createBodyChunks_timing_witness :
    List.Chain' (· ≤ ·)
      ((createBodyChunks 2 [10, 20, 30] witnessResource).map BodyChunk.targetOffset) ∧
    ((createBodyChunks 2 [10, 20, 30] witnessResource).map BodyChunk.targetOffset).getLast? =
      some ((witnessResource.ttfbMS * 1000000 +
        ⌊specTransferTimeNS (3 : Nat) witnessResource.mbps⌋ : Int) : ℚ) :=
  createBodyChunks_timing 2 [10, 20, 30] witnessResource (by decide) (by decide)

/-- C10: an empty playback body yields no chunks, and a transaction without
chunks replays with an empty body and no pacing sleep at all. -/
theorem emptyBody_noChunks_noPacing :
    (∀ (chunkSize : Nat) (r : Resource), createBodyChunks chunkSize [] r = []) ∧
    (∀ (t : PlaybackTransaction) (startTime : ℚ) (now : Nat → ℚ), t.chunks = [] →
      (playbackTransaction t startTime now).1.body = [] ∧
      (playbackTransaction t startTime now).2 = []) := by
  constructor
  · intro chunkSize r
    simp [createBodyChunks]
  · intro t startTime now hc
    unfold playbackTransaction
    rw [hc]
    simp

/-- Witness for `emptyBody_noChunks_noPacing` at a concrete transaction. -/
theorem emptyBody_noChunks_noPacing_witness :
    (playbackTransaction
        { method := gs "GET", url := gs "https://example.com/e", ttfb := 500000000
          statusCode := some 204, errorMessage := none, rawHeaders := [], chunks := [] }
        0 (fun _ => 0)).1.body = [] ∧
    (playbackTransaction
        { method := gs "GET", url := gs "https://example.com/e", ttfb := 500000000
          statusCode := some 204, errorMessage := none, rawHeaders := [], chunks := [] }
        0 (fun _ => 0)).2 = [] :=
  emptyBody_noChunks_noPacing.2
    { method := gs "GET", url := gs "https://example.com/e", ttfb := 500000000
      statusCode := some 204, errorMessage := none, rawHeaders := [], chunks := [] }
    0 (fun _ => 0) rfl

/-- The specification's dedup acceptance condition: the incoming resource is
newer, or it carries a valid positive `Mbps` where the existing one does not. -/
def SpecReplaces (incoming existing : Resource) : Prop :=
  existing.timestamp < incoming.timestamp ∨
  ((∃ m, incoming.mbps = some m ∧ 0 < m) ∧
   (existing.mbps = none ∨ existing.mbps = some 0))

theorem replaceCond_iff (incoming existing : Resource) :
    replaceCond incoming existing = true ↔ SpecReplaces incoming existing := by
  unfold replaceCond SpecReplaces
  cases him : incoming.mbps with
  | none => simp
  | some m =>
    cases hex : existing.mbps with
    | none => simp
    | some em => simp

/-- C4: on both the batched save path and the single-append path, an existing
resource with the same key is replaced exactly when the incoming one is newer
or carries a positive `Mbps` that the existing one lacks; otherwise the
incoming resource is discarded. -/
theorem dedup_replace_rule (r existing : Resource) (map : GoStr → Option Resource)
    (hmap : map (resourceKey r) = some existing)
    (pre post : List Resource)
    (hpre : ∀ e ∈ pre, resourceKey e ≠ resourceKey r)
    (hkey : resourceKey existing = resourceKey r) :
    (SpecReplaces r existing →
      (resourceMapStep map r (resourceKey r) = some r ∧
       appendResourceList (pre ++ existing :: post) r = pre ++ r :: post)) ∧
    (¬ SpecReplaces r existing →
      (resourceMapStep map r (resourceKey r) = some existing ∧
       appendResourceList (pre ++ existing :: post) r = pre ++ existing :: post)) ∧
    (∀ rs, (∀ e ∈ rs, resourceKey e ≠ resourceKey r) →
      appendResourceList rs r = rs ++ [r]) := by
  have happend : ∀ (b : Bool), replaceCond r existing = b →
      appendResourceList (pre ++ existing :: post) r =
        pre ++ (if b then r else existing) :: post := by
    intro b hb
    induction pre with
    | nil =>
      simp only [List.nil_append, appendResourceList, hkey, if_pos rfl, hb]
      cases b <;> simp
    | cons e rest ih =>
      have he : resourceKey e ≠ resourceKey r := hpre e (by simp)
      simp only [List.cons_append, appendResourceList, if_neg he]
      exact congrArg (e :: ·) (ih (fun e' he' => hpre e' (by simp [he'])))
  have hnone : ∀ rs, (∀ e ∈ rs, resourceKey e ≠ resourceKey r) →
      appendResourceList rs r = rs ++ [r] := by
    intro rs hrs
    induction rs with
    | nil => simp [appendResourceList]
    | cons e rest ih =>
      have he : resourceKey e ≠ resourceKey r := hrs e (by simp)
      simp only [appendResourceList, if_neg he]
      exact congrArg (e :: ·) (ih (fun e' he' => hrs e' (by simp [he'])))
  refine ⟨fun hrep => ?_, fun hrep => ?_, hnone⟩
  · have hb : replaceCond r existing = true := (replaceCond_iff r existing).mpr hrep
    constructor
    · unfold resourceMapStep
      rw [hmap]
      dsimp only
      rw [if_pos hb]
      simp
    · simpa using happend true hb
  · have hb : replaceCond r existing = false := by
      rcases Bool.eq_false_or_eq_true (replaceCond r existing) with h | h
      · exact absurd ((replaceCond_iff r existing).mp h) hrep
      · exact h
    constructor
    · unfold resourceMapStep
      rw [hmap]
      dsimp only
      rw [hb]
      simpa using hmap
    · simpa using happend false hb

/-- Witness for `dedup_replace_rule`: a newer incoming resource replaces the
stored one on both persistence paths. -/
theorem dedup_replace_rule_witness :
    (SpecReplaces { witnessResource with timestamp := 5 } witnessResource →
      (resourceMapStep
          (fun k => if k = resourceKey { witnessResource with timestamp := 5 }
                    then some witnessResource else none)
          { witnessResource with timestamp := 5 }
          (resourceKey { witnessResource with timestamp := 5 }) =
        some { witnessResource with timestamp := 5 } ∧
       appendResourceList ([] ++ witnessResource :: []) { witnessResource with timestamp := 5 } =
        [] ++ { witnessResource with timestamp := 5 } :: [])) ∧
    SpecReplaces { witnessResource with timestamp := 5 } witnessResource := by
  refine ⟨?_, Or.inl (by simp [witnessResource])⟩
  exact fun h =>
    (dedup_replace_rule { witnessResource with timestamp := 5 } witnessResource
      (fun k => if k = resourceKey { witnessResource with timestamp := 5 }
                then some witnessResource else none)
      (by simp [resourceKey, witnessResource]) [] []
      (by simp) (by simp [resourceKey, witnessResource])).1 h

/-- C3: for every byte sequence, every one of the six encoding tags and every
compression level, decoding the encoded data restores the original bytes,
provided the external compression libraries round-trip at the (normalized)
levels the repository hands them.  The level hypotheses cover exactly the
ranges the level-normalization of `NewGzipEncoder` / `NewDeflateEncoder` /
`NewBrotliEncoder` can produce. -/
theorem encodeData_decodeData_roundtrip (lib : CodecLib)
    (hgz : ∀ (lvl : Int) (b : List Nat), -1 ≤ lvl → lvl ≤ 9 →
      lib.gzipDecode (lib.gzipEncode lvl b) = .ok b)
    (hfl : ∀ (lvl : Int) (b : List Nat), -2 ≤ lvl → lvl ≤ 9 →
      lib.flateDecode (lib.flateEncode lvl b) = .ok b)
    (hlzw : ∀ b : List Nat, lib.lzwDecode (lib.lzwEncode b) = .ok b)
    (hbr : ∀ (lvl : Int) (b : List Nat), 0 ≤ lvl → lvl ≤ 11 →
      lib.brotliDecode (lib.brotliEncode lvl b) = .ok b)
    (hzstd : ∀ (lvl : Int) (b : List Nat), lib.zstdDecode (lib.zstdEncode lvl b) = .ok b)
    (b : List Nat) (tag : GoStr)
    (htag : tag ∈ [gs "gzip", gs "deflate", gs "br", gs "zstd", gs "compress", gs "identity"])
    (level : Int) :
    (encodeData lib b tag level).bind (fun e => decodeData lib e tag) = .ok b := by
  have hgzlvl : -1 ≤ newGzipEncoderLevel level ∧ newGzipEncoderLevel level ≤ 9 := by
    unfold newGzipEncoderLevel
    split <;> omega
  have hfllvl : -2 ≤ newDeflateEncoderLevel level ∧ newDeflateEncoderLevel level ≤ 9 := by
    unfold newDeflateEncoderLevel
    split <;> omega
  have hbrlvl : 0 ≤ newBrotliEncoderLevel level ∧ newBrotliEncoderLevel level ≤ 11 := by
    unfold newBrotliEncoderLevel
    split <;> omega
  fin_cases htag <;>
    simp [encodeData, decodeData, gs, Except.bind,
      hgz _ b hgzlvl.1 hgzlvl.2, hfl _ b hfllvl.1 hfllvl.2, hlzw b,
      hbr _ b hbrlvl.1 hbrlvl.2, hzstd level b]

/-- Witness for `encodeData_decodeData_roundtrip` with the copying codec
library at a concrete byte string, tag and (invalid) level. -/
theorem encodeData_decodeData_roundtrip_witness :
    (encodeData copyCodecLib [7, 8, 9] (gs "br") 99).bind
      (fun e => decodeData copyCodecLib e (gs "br")) = .ok [7, 8, 9] :=
  encodeData_decodeData_roundtrip copyCodecLib
    (fun _ _ _ _ => rfl) (fun _ _ _ _ => rfl) (fun _ => rfl)
    (fun _ _ _ _ => rfl) (fun _ _ => rfl)
    [7, 8, 9] (gs "br") (by decide) 99

/-- C8: the shared forward transport uses `MaxIdleConns = 100`, a 90 s idle
timeout and disabled decompression; on an inventory miss, a request-build
failure synthesizes a 500 and a transport failure a 502, both with a
plain-text body carrying the error message. -/
theorem upstream_fallback_behaviour :
    (newPlaybackUpstreamTransport.maxIdleConns = 100 ∧
     newPlaybackUpstreamTransport.idleConnTimeout = 90 * 1000000000 ∧
     newPlaybackUpstreamTransport.disableCompression = true) ∧
    (∀ (Req : Type) (tmap : GoStr → Option PlaybackTransaction) (method url : GoStr)
       (startTime : ℚ) (now : Nat → ℚ) (e : GoStr)
       (doRequest : Req → Except GoStr UpstreamResult),
       tmap (method ++ ':' :: url) = none →
       (playbackRequest tmap method url startTime now (.error e) doRequest).1.statusCode = 500 ∧
       headerGet (playbackRequest tmap method url startTime now
           (.error e) doRequest).1.header (gs "Content-Type") = gs "text/plain" ∧
       (playbackRequest tmap method url startTime now (.error e) doRequest).1.body =
         strBytes (gs "Failed to create upstream request: " ++ e)) ∧
    (∀ (Req : Type) (tmap : GoStr → Option PlaybackTransaction) (method url : GoStr)
       (startTime : ℚ) (now : Nat → ℚ) (req : Req) (e : GoStr)
       (doRequest : Req → Except GoStr UpstreamResult),
       tmap (method ++ ':' :: url) = none →
       doRequest req = .error e →
       (playbackRequest tmap method url startTime now (.ok req) doRequest).1.statusCode = 502 ∧
       headerGet (playbackRequest tmap method url startTime now
           (.ok req) doRequest).1.header (gs "Content-Type") = gs "text/plain" ∧
       (playbackRequest tmap method url startTime now (.ok req) doRequest).1.body =
         strBytes (gs "Upstream request failed: " ++ e)) := by
  refine ⟨⟨rfl, rfl, rfl⟩, ?_, ?_⟩
  · intro Req tmap method url startTime now e doRequest hmiss
    unfold playbackRequest
    rw [hmiss]
    dsimp only
    exact ⟨rfl, rfl, rfl⟩
  · intro Req tmap method url startTime now req e doRequest hmiss hdo
    unfold playbackRequest
    rw [hmiss]
    dsimp only
    unfold proxyUpstream
    dsimp only
    rw [hdo]
    exact ⟨rfl, rfl, rfl⟩

/-- Witness for `upstream_fallback_behaviour` at a concrete miss. -/
theorem upstream_fallback_behaviour_witness :
    (playbackRequest (fun _ => none) (gs "GET") (gs "http://h/x") 0 (fun _ => 0)
        (.error (gs "bad url") : Except GoStr Unit)
        (fun _ => .error (gs "down"))).1.statusCode = 500 ∧
    (playbackRequest (fun _ => none) (gs "GET") (gs "http://h/x") 0 (fun _ => 0)
        (.ok () : Except GoStr Unit)
        (fun _ => .error (gs "down"))).1.statusCode = 502 :=
  ⟨(upstream_fallback_behaviour.2.1 Unit (fun _ => none) (gs "GET") (gs "http://h/x")
      0 (fun _ => 0) (gs "bad url") (fun _ => .error (gs "down")) rfl).1,
   (upstream_fallback_behaviour.2.2 Unit (fun _ => none) (gs "GET") (gs "http://h/x")
      0 (fun _ => 0) () (gs "down") (fun _ => .error (gs "down")) rfl rfl).1⟩

/-- C9 counterexample: on the unsupported MIME type `image/png`,
`OptimizeByMimeType` with the beautify optimizer returns the content
unchanged with no error, where the claim demands an error. -/
theorem optimizeByMimeType_beautify_unsupported_ok :
    optimizeByMimeType nullOptimizerLib (gs "abc") (gs "image/png") (gs "beautify") =
      .ok (gs "abc") := by rfl

/-- C9 (amended): MIME types matching none of the dispatch substrings pass
through `OptimizeByMimeType` unchanged and without error for both optimizer
types; the beautification error for unsupported content arises only inside
`beautifyContent`. -/
theorem optimizer_unsupported_mime (lib : OptimizerLib) (content mimeType oty : GoStr)
    (h1 : containsSub mimeType (gs "html") = false)
    (h2 : containsSub mimeType (gs "css") = false)
    (h3 : containsSub mimeType (gs "javascript") = false)
    (h4 : containsSub mimeType (gs "ecmascript") = false) :
    optimizeByMimeType lib content mimeType oty = .ok content ∧
    (∀ options : OptimizationOptions,
      options.contentType ≠ gs "text/html" →
      options.contentType ≠ gs "text/css" →
      options.contentType ≠ gs "text/javascript" →
      beautifyContent lib content options =
        .error (gs "unsupported content type for beautification: " ++
                options.contentType)) := by
  constructor
  · unfold optimizeByMimeType
    simp [h1, h2, h3, h4]
  · intro o ha hb hc
    unfold beautifyContent
    rw [if_neg ha, if_neg hb, if_neg hc]

/-- Witness for `optimizer_unsupported_mime` at `image/png`. -/
theorem optimizer_unsupported_mime_witness :
    optimizeByMimeType nullOptimizerLib (gs "x") (gs "image/png") (gs "minify") =
      .ok (gs "x") ∧
    beautifyContent nullOptimizerLib (gs "x")
      { defaultOptimizationOptions with contentType := gs "application/json" } =
      .error (gs "unsupported content type for beautification: application/json") := by
  have h := optimizer_unsupported_mime nullOptimizerLib (gs "x") (gs "image/png")
    (gs "minify") (by decide) (by decide) (by decide) (by decide)
  refine ⟨h.1, ?_⟩
  have h2 := h.2 { defaultOptimizationOptions with contentType := gs "application/json" }
    (by decide) (by decide) (by decide)
  simpa using h2

theorem splitChar_ne_nil (s : GoStr) (c : Char) : splitChar s c ≠ [] := by
  cases s with
  | nil => simp [splitChar]
  | cons x rest =>
    unfold splitChar
    cases h : splitChar rest c <;> split <;> split <;> simp

theorem splitChar_headD (s : GoStr) (c : Char) :
    (splitChar s c).headD [] =
      (match goIndexSub s [c] with
       | some j => s.take j
       | none => s) := by
  induction s with
  | nil => simp [splitChar, goIndexSub]
  | cons x rest ih =>
    by_cases hx : x = c
    · subst hx
      unfold splitChar goIndexSub
      have hp : [x] <+: x :: rest := ⟨rest, rfl⟩
      rw [if_pos hp]
      cases h : splitChar rest x with
      | nil => exact absurd h (splitChar_ne_nil rest x)
      | cons a t => simp
    · unfold splitChar goIndexSub
      have hp : ¬ ([c] <+: x :: rest) := by
        intro hcontra
        rcases hcontra with ⟨t, ht⟩
        simp only [List.singleton_append, List.cons.injEq] at ht
        exact hx ht.1.symm
      rw [if_neg hp]
      cases h : splitChar rest c with
      | nil => exact absurd h (splitChar_ne_nil rest c)
      | cons a t =>
        rw [if_neg hx]
        cases hidx : goIndexSub rest [c] with
        | none =>
          simp only [hidx, Option.map_none'] at ih ⊢
          rw [h] at ih
          simp only [List.headD_cons] at ih
          simp [hx, ih]
        | some j =>
          simp only [hidx, Option.map_some'] at ih ⊢
          rw [h] at ih
          simp only [List.headD_cons] at ih
          simp [hx, ih]

/-- The specification's `http_charset` extraction, written from the spec's
words and without the final lower-casing the spec asks for: the token after
the first (case-insensitive) `charset=`, cut at the next `;`, trimmed of
quotes and whitespace. -/
def specHttpCharsetToken (contentType : GoStr) : GoStr :=
  match goIndexSub (goToLower contentType) (gs "charset=") with
  | none => []
  | some idx =>
    goTrimCutset ((splitChar (contentType.drop (idx + 8)) ';').headD []) (gs " \"'")

/-- C7 counterexample: the charset token of the `Content-Type` header is kept
in its original case, not lower-cased as claimed. -/
theorem detectCharset_keepsCase :
    (detectCharset nullCharsetExternals (gs "text/html; charset=UTF-8") []).1 =
      gs "UTF-8" ∧
    gs "UTF-8" ≠ goToLower (gs "UTF-8") := by
  constructor
  · rfl
  · decide

/-- C7 (amended): `detectCharset` returns as `http_charset` exactly the token
following `charset=`, cut at `;` and trimmed of quotes and whitespace, with
its original case preserved (empty when there is no charset parameter). -/
theorem detectCharset_http_charset (ext : CharsetExternals) (contentType : GoStr)
    (body : List Nat) :
    (detectCharset ext contentType body).1 = specHttpCharsetToken contentType := by
  unfold detectCharset specHttpCharsetToken
  by_cases hct : contentType = []
  · subst hct
    simp [goToLower, goIndexSub, gs]
  · rw [if_pos hct]
    cases hidx : goIndexSub (goToLower contentType) (gs "charset=") with
    | none => simp
    | some idx =>
      dsimp only
      rw [splitChar_headD]
      cases hsemi : goIndexSub (contentType.drop (idx + 8)) [';'] with
      | none =>
        dsimp only
        split <;> simp_all
      | some j =>
        dsimp only
        split <;> simp_all

/-- Witness for `detectCharset_http_charset` at a concrete header value. -/
theorem detectCharset_http_charset_witness :
    (detectCharset nullCharsetExternals (gs "text/css; charset='EUC-JP'; q=1") []).1 =
      specHttpCharsetToken (gs "text/css; charset='EUC-JP'; q=1") :=
  detectCharset_http_charset nullCharsetExternals (gs "text/css; charset='EUC-JP'; q=1") []

/-- The resolved final charset of `processCharsetForRecording`: the content
charset when present, else the HTTP header charset. -/
def finalCharsetOf (ext : CharsetExternals) (contentType : GoStr) (body : List Nat) :
    GoStr :=
  if (detectCharset ext contentType body).2 = []
  then (detectCharset ext contentType body).1
  else (detectCharset ext contentType body).2

/-- C5: when transcoding the final charset to UTF-8 fails during recording,
the original bytes are kept, `-failed` is appended to the charset, and no
error is surfaced; during playback an empty, `utf-8` or `-failed` charset
returns the body unchanged with no reverse transcoding. -/
theorem charset_failed_contract :
    (∀ (ext : CharsetExternals) (contentType : GoStr) (body : List Nat) (e : GoStr),
      convertToUTF8 ext body (finalCharsetOf ext contentType body) = .error e →
      processCharsetForRecording ext contentType body =
        (body, (detectCharset ext contentType body).1,
         finalCharsetOf ext contentType body ++ gs "-failed", none)) ∧
    (∀ (ext : CharsetExternals) (body : List Nat) (cc : GoStr) (headers : Headers),
      cc = [] ∨ goToLower cc = gs "utf-8" ∨ goHasSuf cc (gs "-failed") = true →
      processCharsetForPlayback ext body cc headers = .ok (body, headers)) := by
  constructor
  · intro ext contentType body e herr
    unfold processCharsetForRecording
    unfold finalCharsetOf at herr ⊢
    dsimp only
    by_cases hfc :
        (if (detectCharset ext contentType body).2 = []
         then (detectCharset ext contentType body).1
         else (detectCharset ext contentType body).2) = [] ∨
        goToLower
          (if (detectCharset ext contentType body).2 = []
           then (detectCharset ext contentType body).1
           else (detectCharset ext contentType body).2) = gs "utf-8"
    · exfalso
      unfold convertToUTF8 at herr
      rw [if_pos hfc] at herr
      exact Except.noConfusion herr
    · rw [if_neg hfc, herr]
  · intro ext body cc headers hcc
    unfold processCharsetForPlayback
    by_cases h1 : cc = [] ∨ goToLower cc = gs "utf-8"
    · rw [if_pos h1]
    · rw [if_neg h1]
      have hsuf : goHasSuf cc (gs "-failed") = true := by
        rcases hcc with h | h | h
        · exact absurd (Or.inl h) h1
        · exact absurd (Or.inr h) h1
        · exact h
      rw [if_pos hsuf]

/-- Witness for `charset_failed_contract`: a Shift_JIS body whose transform
fails is stored raw and marked `shift_jis-failed`; a `-failed` charset plays
back unchanged. -/
theorem charset_failed_contract_witness :
    processCharsetForRecording nullCharsetExternals
      (gs "text/plain; charset=shift_jis") [1, 2, 3] =
      ([1, 2, 3], gs "shift_jis", gs "shift_jis-failed", none) ∧
    processCharsetForPlayback nullCharsetExternals [1, 2, 3]
      (gs "shift_jis-failed") emptyHeaders = .ok ([1, 2, 3], emptyHeaders) := by
  constructor
  · have h := charset_failed_contract.1 nullCharsetExternals
      (gs "text/plain; charset=shift_jis") [1, 2, 3]
      (gs "failed to convert to UTF-8: no transform") rfl
    simpa using h
  · exact charset_failed_contract.2 nullCharsetExternals [1, 2, 3]
      (gs "shift_jis-failed") emptyHeaders (Or.inr (Or.inr (by decide)))

theorem foldl_headerSet_untouched (l : List (GoStr × GoStr)) (h : Headers) (k : GoStr)
    (hk : ∀ kv ∈ l, canonicalMIMEHeaderKey kv.1 ≠ k) :
    (l.foldl (fun acc kv => headerSet acc kv.1 kv.2) h) k = h k := by
  induction l generalizing h with
  | nil => rfl
  | cons kv rest ih =>
    simp only [List.foldl_cons]
    rw [ih _ (fun kv' h' => hk kv' (List.mem_cons_of_mem _ h'))]
    unfold headerSet
    rw [if_neg]
    intro hcontra
    exact hk kv (List.mem_cons_self _ _) hcontra.symm

theorem foldl_headerSet_mem (l : List (GoStr × GoStr)) (h : Headers)
    (kv : GoStr × GoStr) (hmem : kv ∈ l)
    (hnodup : (l.map (fun kv => canonicalMIMEHeaderKey kv.1)).Nodup) :
    (l.foldl (fun acc kv => headerSet acc kv.1 kv.2) h)
      (canonicalMIMEHeaderKey kv.1) = some [kv.2] := by
  induction l generalizing h with
  | nil => exact absurd hmem (List.not_mem_nil kv)
  | cons x rest ih =>
    simp only [List.map_cons, List.nodup_cons] at hnodup
    rcases List.mem_cons.mp hmem with hx | hrest
    · subst hx
      simp only [List.foldl_cons]
      rw [foldl_headerSet_untouched rest _ _ ?_]
      · unfold headerSet
        rw [if_pos rfl]
      · intro kv' h' hcontra
        exact hnodup.1 (by
          rw [← hcontra]
          exact List.mem_map.mpr ⟨kv', h', rfl⟩)
    · simp only [List.foldl_cons]
      exact ih _ hrest hnodup.2

theorem playbackChunksLoop_body (t : PlaybackTransaction) (startTime : ℚ)
    (now : Nat → ℚ) (chunks : List BodyChunk) (i : Nat) :
    (playbackChunksLoop t startTime now chunks i).1 =
      (chunks.map BodyChunk.chunk).flatten := by
  induction chunks generalizing i with
  | nil => rfl
  | cons c rest ih =>
    unfold playbackChunksLoop
    simp [ih (i + 1)]

theorem playbackChunksLoop_waits_length (t : PlaybackTransaction) (startTime : ℚ)
    (now : Nat → ℚ) (chunks : List BodyChunk) (i : Nat) :
    (playbackChunksLoop t startTime now chunks i).2.length = chunks.length := by
  induction chunks generalizing i with
  | nil => rfl
  | cons c rest ih =>
    unfold playbackChunksLoop
    simp [ih (i + 1)]

theorem playbackChunksLoop_waits_zero (t : PlaybackTransaction) (startTime : ℚ)
    (now : Nat → ℚ) (chunks : List BodyChunk) (i : Nat) (k : Nat)
    (hk : k < chunks.length)
    (hpassed : startTime + chunkTargetOffset t (i + k) (chunks.get ⟨k, hk⟩) ≤ now (i + k)) :
    (playbackChunksLoop t startTime now chunks i).2.getD k 1 = 0 := by
  induction chunks generalizing i k with
  | nil => exact absurd hk (by simp)
  | cons c rest ih =>
    unfold playbackChunksLoop
    cases k with
    | zero =>
      simp only [List.get] at hpassed
      have : ¬ (now i < startTime + chunkTargetOffset t i c) := by
        simp only [Nat.add_zero] at hpassed
        linarith
      simp [this]
    | succ k' =>
      have hk' : k' < rest.length := by simpa using hk
      have hpassed' : startTime + chunkTargetOffset t ((i + 1) + k')
          (rest.get ⟨k', hk'⟩) ≤ now ((i + 1) + k') := by
        have heq : (i + 1) + k' = i + (k' + 1) := by omega
        rw [heq]
        simpa using hpassed
      have := ih (i + 1) k' hk' hpassed'
      simpa using this

/-- C6: a request whose key matches a loaded transaction is answered with the
transaction's status (200 when absent), the stored headers plus
`x-playback-proxy: 1`, and the concatenation of all chunk bytes; a chunk whose
send time has already passed incurs a zero sleep and is still emitted. -/
theorem playback_hit_response {Req : Type}
    (tmap : GoStr → Option PlaybackTransaction) (t : PlaybackTransaction)
    (method url : GoStr) (startTime : ℚ) (now : Nat → ℚ)
    (newRequest : Except GoStr Req)
    (doRequest : Req → Except GoStr UpstreamResult)
    (hmap : tmap (method ++ ':' :: url) = some t)
    (hnodup : (t.rawHeaders.map (fun kv => canonicalMIMEHeaderKey kv.1)).Nodup) :
    (playbackRequest tmap method url startTime now newRequest doRequest).1.statusCode =
      (t.statusCode.getD 200 : Int) ∧
    (playbackRequest tmap method url startTime now newRequest doRequest).1.body =
      (t.chunks.map BodyChunk.chunk).flatten ∧
    (playbackRequest tmap method url startTime now newRequest doRequest).1.header
      (gs "X-Playback-Proxy") = some [gs "1"] ∧
    (∀ kv ∈ t.rawHeaders, canonicalMIMEHeaderKey kv.1 ≠ gs "X-Playback-Proxy" →
      (playbackRequest tmap method url startTime now newRequest doRequest).1.header
        (canonicalMIMEHeaderKey kv.1) = some [kv.2]) ∧
    (playbackRequest tmap method url startTime now newRequest doRequest).2.length =
      t.chunks.length ∧
    (∀ (k : Nat) (hk : k < t.chunks.length),
      startTime + chunkTargetOffset t k (t.chunks.get ⟨k, hk⟩) ≤ now k →
      (playbackRequest tmap method url startTime now newRequest doRequest).2.getD k 1 = 0) := by
  unfold playbackRequest
  rw [hmap]
  dsimp only
  unfold playbackTransaction
  have hcanon : canonicalMIMEHeaderKey (gs "x-playback-proxy") = gs "X-Playback-Proxy" := by
    decide
  by_cases hlen : 0 < t.chunks.length
  · rw [if_pos hlen]
    refine ⟨?_, ?_, ?_, ?_, ?_, ?_⟩
    · cases t.statusCode <;> rfl
    · exact playbackChunksLoop_body t startTime now t.chunks 0
    · show headerSet (t.rawHeaders.foldl (fun h kv => headerSet h kv.1 kv.2) emptyHeaders)
          (gs "x-playback-proxy") (gs "1") (gs "X-Playback-Proxy") = some [gs "1"]
      unfold headerSet
      rw [hcanon, if_pos rfl]
    · intro kv hkv hne
      show headerSet (t.rawHeaders.foldl (fun h kv => headerSet h kv.1 kv.2) emptyHeaders)
          (gs "x-playback-proxy") (gs "1") (canonicalMIMEHeaderKey kv.1) = some [kv.2]
      unfold headerSet
      rw [hcanon, if_neg hne]
      exact foldl_headerSet_mem t.rawHeaders emptyHeaders kv hkv hnodup
    · exact playbackChunksLoop_waits_length t startTime now t.chunks 0
    · intro k hk hp
      exact playbackChunksLoop_waits_zero t startTime now t.chunks 0 k hk (by simpa using hp)
  · rw [if_neg hlen]
    have hnil : t.chunks = [] := by
      cases hc : t.chunks with
      | nil => rfl
      | cons a l => rw [hc] at hlen; simp at hlen
    refine ⟨?_, ?_, ?_, ?_, ?_, ?_⟩
    · cases t.statusCode <;> rfl
    · rw [hnil]; rfl
    · show headerSet (t.rawHeaders.foldl (fun h kv => headerSet h kv.1 kv.2) emptyHeaders)
          (gs "x-playback-proxy") (gs "1") (gs "X-Playback-Proxy") = some [gs "1"]
      unfold headerSet
      rw [hcanon, if_pos rfl]
    · intro kv hkv hne
      show headerSet (t.rawHeaders.foldl (fun h kv => headerSet h kv.1 kv.2) emptyHeaders)
          (gs "x-playback-proxy") (gs "1") (canonicalMIMEHeaderKey kv.1) = some [kv.2]
      unfold headerSet
      rw [hcanon, if_neg hne]
      exact foldl_headerSet_mem t.rawHeaders emptyHeaders kv hkv hnodup
    · rw [hnil]; rfl
    · intro k hk
      rw [hnil] at hk
      exact absurd hk (by simp)

/-- A concrete transaction for the replay witness. -/
def witnessTransaction : PlaybackTransaction :=
  { method := gs "GET", url := gs "https://example.com/w"
    ttfb := 50000000, statusCode := none, errorMessage := none
    rawHeaders := [(gs "content-type", gs "text/plain")]
    chunks := [{ chunk := [1, 2], targetOffset := 0 }] }

/-- Witness for `playback_hit_response` at a concrete hit whose only chunk is
already overdue. -/
theorem playback_hit_response_witness :
    (playbackRequest
        (fun k => if k = gs "GET:https://example.com/w" then some witnessTransaction
                  else none)
        (gs "GET") (gs "https://example.com/w") 0 (fun _ => 10000000000)
        (.error (gs "unused") : Except GoStr Unit)
        (fun _ => .error (gs "unused"))).1.statusCode = 200 ∧
    (playbackRequest
        (fun k => if k = gs "GET:https://example.com/w" then some witnessTransaction
                  else none)
        (gs "GET") (gs "https://example.com/w") 0 (fun _ => 10000000000)
        (.error (gs "unused") : Except GoStr Unit)
        (fun _ => .error (gs "unused"))).1.body = [1, 2] ∧
    (playbackRequest
        (fun k => if k = gs "GET:https://example.com/w" then some witnessTransaction
                  else none)
        (gs "GET") (gs "https://example.com/w") 0 (fun _ => 10000000000)
        (.error (gs "unused") : Except GoStr Unit)
        (fun _ => .error (gs "unused"))).1.header (gs "X-Playback-Proxy") = some [gs "1"] ∧
    (playbackRequest
        (fun k => if k = gs "GET:https://example.com/w" then some witnessTransaction
                  else none)
        (gs "GET") (gs "https://example.com/w") 0 (fun _ => 10000000000)
        (.error (gs "unused") : Except GoStr Unit)
        (fun _ => .error (gs "unused"))).2.getD 0 1 = 0 := by
  have h := playback_hit_response
    (fun k => if k = gs "GET:https://example.com/w" then some witnessTransaction else none)
    witnessTransaction (gs "GET") (gs "https://example.com/w") 0 (fun _ => 10000000000)
    (.error (gs "unused") : Except GoStr Unit) (fun _ => .error (gs "unused"))
    (by rfl) (by decide)
  refine ⟨?_, ?_, h.2.2.1, ?_⟩
  · simpa using h.1
  · simpa using h.2.1
  · exact h.2.2.2.2.2 0 (by decide) (by
      show (0 : ℚ) + chunkTargetOffset witnessTransaction 0
          ({ chunk := [1, 2], targetOffset := 0 } : BodyChunk) ≤ 10000000000
      unfold chunkTargetOffset witnessTransaction
      norm_num)

/-! ## Proof infrastructure for the path codec round trip -/

theorem splitChar_no_sep (x : GoStr) (sep : Char) (hx : sep ∉ x) :
    splitChar x sep = [x] := by
  induction x with
  | nil => rfl
  | cons c rest ih =>
    have hc : c ≠ sep := fun h => hx (h ▸ List.mem_cons_self c rest)
    have hrest : sep ∉ rest := fun h => hx (List.mem_cons_of_mem c h)
    unfold splitChar
    rw [ih hrest]
    simp [hc]

theorem splitChar_append_sep (x r : GoStr) (sep : Char) (hx : sep ∉ x) :
    splitChar (x ++ sep :: r) sep = x :: splitChar r sep := by
  induction x with
  | nil =>
    simp only [List.nil_append]
    conv_lhs => rw [splitChar]
    cases h : splitChar r sep with
    | nil => exact absurd h (splitChar_ne_nil r sep)
    | cons a t => simp
  | cons c rest ih =>
    have hc : c ≠ sep := fun h => hx (h ▸ List.mem_cons_self c rest)
    have hrest : sep ∉ rest := fun h => hx (List.mem_cons_of_mem c h)
    simp only [List.cons_append]
    conv_lhs => rw [splitChar]
    rw [ih hrest]
    simp [hc]

theorem joinChar_splitChar (s : GoStr) (sep : Char) :
    joinChar (splitChar s sep) sep = s := by
  induction s with
  | nil => rfl
  | cons c rest ih =>
    conv_lhs => rw [splitChar]
    cases h : splitChar rest sep with
    | nil => exact absurd h (splitChar_ne_nil rest sep)
    | cons a t =>
      rw [h] at ih
      dsimp only
      by_cases hc : c = sep
      · subst hc
        rw [if_pos rfl]
        show [] ++ c :: joinChar (a :: t) c = c :: rest
        rw [ih]
        rfl
      · rw [if_neg hc]
        cases t with
        | nil =>
          show c :: a = c :: rest
          exact congrArg (c :: ·) ih
        | cons b t' =>
          show (c :: a) ++ sep :: joinChar (b :: t') sep = c :: rest
          have hih : a ++ sep :: joinChar (b :: t') sep = rest := ih
          rw [List.cons_append, hih]

theorem splitChar_joinChar (xs : List GoStr) (sep : Char) (hne : xs ≠ [])
    (hs : ∀ x ∈ xs, sep ∉ x) :
    splitChar (joinChar xs sep) sep = xs := by
  induction xs with
  | nil => exact absurd rfl hne
  | cons x rest ih =>
    cases rest with
    | nil => exact splitChar_no_sep x sep (hs x (by simp))
    | cons y t =>
      have hj : joinChar (x :: y :: t) sep = x ++ sep :: joinChar (y :: t) sep := rfl
      rw [hj, splitChar_append_sep x _ sep (hs x (by simp))]
      rw [ih (by simp) (fun z hz => hs z (List.mem_cons_of_mem x hz))]

theorem charToNat_ofNat_lt (n : Nat) (h : n < 55296) : (Char.ofNat n).toNat = n := by
  have hv : n.isValidChar := Or.inl h
  rw [Char.ofNat, dif_pos hv]
  simp [Char.ofNatAux, Char.toNat, UInt32.toNat]

theorem asciiLower_toNat_of_upper (c : Char) (h : 65 ≤ c.toNat ∧ c.toNat ≤ 90) :
    (asciiLower c).toNat = c.toNat + 32 := by
  unfold asciiLower
  rw [if_pos h]
  exact charToNat_ofNat_lt (c.toNat + 32) (by omega)

theorem asciiUpper_asciiLower (c : Char) : asciiUpper (asciiLower c) = asciiUpper c := by
  by_cases h : 65 ≤ c.toNat ∧ c.toNat ≤ 90
  · have hl : (asciiLower c).toNat = c.toNat + 32 := asciiLower_toNat_of_upper c h
    unfold asciiUpper
    rw [hl, if_pos (by omega), if_neg (by omega)]
    have : c.toNat + 32 - 32 = c.toNat := by omega
    rw [this, Char.ofNat_toNat]
  · unfold asciiLower
    rw [if_neg h]

theorem goToUpper_goToLower (s : GoStr) : goToUpper (goToLower s) = goToUpper s := by
  unfold goToUpper goToLower
  rw [List.map_map]
  exact List.map_congr_left (fun c _ => asciiUpper_asciiLower c)

theorem asciiLower_eq_iff (c d : Char) (hd1 : ¬ (97 ≤ d.toNat ∧ d.toNat ≤ 122))
    (hd2 : ¬ (65 ≤ d.toNat ∧ d.toNat ≤ 90)) :
    asciiLower c = d ↔ c = d := by
  constructor
  · intro h
    by_cases hc : 65 ≤ c.toNat ∧ c.toNat ≤ 90
    · exfalso
      have := asciiLower_toNat_of_upper c hc
      rw [h] at this
      omega
    · unfold asciiLower at h
      rwa [if_neg hc] at h
  · intro h
    subst h
    unfold asciiLower
    rw [if_neg hd2]

theorem mem_goToLower_iff (s : GoStr) (d : Char)
    (hd1 : ¬ (97 ≤ d.toNat ∧ d.toNat ≤ 122))
    (hd2 : ¬ (65 ≤ d.toNat ∧ d.toNat ≤ 90)) :
    d ∈ goToLower s ↔ d ∈ s := by
  unfold goToLower
  rw [List.mem_map]
  constructor
  · rintro ⟨c, hc, hcd⟩
    rwa [(asciiLower_eq_iff c d hd1 hd2).mp hcd] at hc
  · intro h
    exact ⟨d, h, (asciiLower_eq_iff d d hd1 hd2).mpr rfl⟩

theorem goToLower_eq_singleton_iff (s : GoStr) (d : Char)
    (hd1 : ¬ (97 ≤ d.toNat ∧ d.toNat ≤ 122))
    (hd2 : ¬ (65 ≤ d.toNat ∧ d.toNat ≤ 90)) :
    goToLower s = [d] ↔ s = [d] := by
  constructor
  · intro h
    cases s with
    | nil => simp [goToLower] at h
    | cons c rest =>
      cases rest with
      | nil =>
        simp only [goToLower, List.map_cons, List.map_nil, List.cons.injEq, and_true] at h
        rw [(asciiLower_eq_iff c d hd1 hd2).mp h]
      | cons c2 r2 => simp [goToLower] at h
  · intro h
    subst h
    simp only [goToLower, List.map_cons, List.map_nil, List.cons.injEq, and_true]
    exact (asciiLower_eq_iff d d hd1 hd2).mpr rfl

theorem goToLower_eq_pair_iff (s : GoStr) (d : Char)
    (hd1 : ¬ (97 ≤ d.toNat ∧ d.toNat ≤ 122))
    (hd2 : ¬ (65 ≤ d.toNat ∧ d.toNat ≤ 90)) :
    goToLower s = [d, d] ↔ s = [d, d] := by
  constructor
  · intro h
    cases s with
    | nil => simp [goToLower] at h
    | cons c rest =>
      cases rest with
      | nil => simp [goToLower] at h
      | cons c2 r2 =>
        cases r2 with
        | nil =>
          simp only [goToLower, List.map_cons, List.map_nil, List.cons.injEq, and_true] at h
          rw [(asciiLower_eq_iff c d hd1 hd2).mp h.1,
              (asciiLower_eq_iff c2 d hd1 hd2).mp h.2]
        | cons c3 r3 => simp [goToLower] at h
  · intro h
    subst h
    simp only [goToLower, List.map_cons, List.map_nil, List.cons.injEq, and_true]
    exact ⟨(asciiLower_eq_iff d d hd1 hd2).mpr rfl, (asciiLower_eq_iff d d hd1 hd2).mpr rfl⟩

theorem append_singleton_isPre (a b d : GoStr) (c : Char) (ha : c ∉ a) (hb : c ∉ b) :
    (a ++ [c]) <+: (b ++ c :: d) ↔ a = b := by
  induction a generalizing b with
  | nil =>
    cases b with
    | nil => simp
    | cons x b' =>
      simp only [List.nil_append]
      constructor
      · intro h
        have hcx : c = x := by simpa using h
        exact absurd (hcx ▸ List.mem_cons_self x b') hb
      · intro h
        exact absurd h (by simp)
  | cons x a' ih =>
    have hx : x ≠ c := fun h => ha (h ▸ List.mem_cons_self x a')
    have ha' : c ∉ a' := fun h => ha (List.mem_cons_of_mem x h)
    cases b with
    | nil =>
      simp only [List.nil_append, List.cons_append]
      constructor
      · intro h
        rcases List.cons_prefix_cons.mp h with ⟨hxc, _⟩
        exact absurd hxc hx
      · intro h
        exact absurd h (by simp)
    | cons y b' =>
      have hb' : c ∉ b' := fun h => hb (List.mem_cons_of_mem y h)
      simp only [List.cons_append, List.cons_prefix_cons]
      rw [ih b' ha' hb']
      constructor
      · rintro ⟨h1, h2⟩
        rw [h1, h2]
      · intro h
        injection h with h1 h2
        exact ⟨h1, h2⟩

theorem suffix_sepseg (pre seg t : GoStr) (c : Char) (hseg : c ∉ seg) (ht : c ∉ t) :
    (c :: t) <:+ (pre ++ c :: seg) ↔ seg = t := by
  rw [← List.reverse_prefix]
  have h1 : (c :: t).reverse = t.reverse ++ [c] := by simp
  have h2 : (pre ++ c :: seg).reverse = seg.reverse ++ c :: pre.reverse := by simp
  rw [h1, h2]
  rw [append_singleton_isPre t.reverse seg.reverse pre.reverse c
    (by simpa using ht) (by simpa using hseg)]
  constructor
  · intro h
    have := congrArg List.reverse h
    simpa using this.symm
  · intro h
    rw [h]

/-- The flattening `d₁/d₂/…/` of a list of directory segments. -/
def dirsConcat (dirs : List GoStr) : GoStr := dirs.flatMap (fun d => d ++ ['/'])

theorem dirsConcat_nil : dirsConcat [] = [] := rfl

theorem dirsConcat_cons (d : GoStr) (ds : List GoStr) :
    dirsConcat (d :: ds) = d ++ '/' :: dirsConcat ds := by
  simp [dirsConcat]

theorem exists_pre_dirs (dirs : List GoStr) (seg : GoStr) :
    ∃ pre, '/' :: dirsConcat dirs ++ seg = pre ++ '/' :: seg := by
  induction dirs with
  | nil => exact ⟨[], by simp [dirsConcat]⟩
  | cons d ds ih =>
    rcases ih with ⟨pre, hpre⟩
    refine ⟨'/' :: d ++ pre, ?_⟩
    rw [dirsConcat_cons]
    have : '/' :: (d ++ '/' :: dirsConcat ds) ++ seg =
        ('/' :: d) ++ ('/' :: dirsConcat ds ++ seg) := by simp
    rw [this, hpre]
    simp

theorem slash_dirsConcat_ends_slash (dirs : List GoStr) :
    ∃ u, '/' :: dirsConcat dirs = u ++ ['/'] := by
  induction dirs with
  | nil => exact ⟨[], rfl⟩
  | cons d ds ih =>
    rcases ih with ⟨u, hu⟩
    refine ⟨'/' :: d ++ u, ?_⟩
    rw [dirsConcat_cons]
    have : ('/' :: (d ++ '/' :: dirsConcat ds) : GoStr) =
        ('/' :: d) ++ ('/' :: dirsConcat ds) := by simp
    rw [this, hu]
    simp

theorem splitChar_dirsConcat (dirs : List GoStr) (seg : GoStr)
    (hd : ∀ d ∈ dirs, '/' ∉ d) (hs : '/' ∉ seg) :
    splitChar (dirsConcat dirs ++ seg) '/' = dirs ++ [seg] := by
  induction dirs with
  | nil =>
    rw [dirsConcat_nil, List.nil_append]
    exact splitChar_no_sep seg '/' hs
  | cons d ds ih =>
    rw [dirsConcat_cons]
    have : (d ++ '/' :: dirsConcat ds) ++ seg = d ++ '/' :: (dirsConcat ds ++ seg) := by
      simp
    rw [this, splitChar_append_sep d _ '/' (hd d (by simp))]
    rw [ih (fun d' h' => hd d' (List.mem_cons_of_mem d h'))]
    rfl

theorem joinChar_dirsConcat (dirs : List GoStr) (seg : GoStr) :
    joinChar (dirs ++ [seg]) '/' = dirsConcat dirs ++ seg := by
  induction dirs with
  | nil => simp [joinChar, dirsConcat]
  | cons d ds ih =>
    rw [dirsConcat_cons]
    have h1 : (d :: ds) ++ [seg] = d :: (ds ++ [seg]) := rfl
    rw [h1]
    have h2 : joinChar (d :: (ds ++ [seg])) '/' = d ++ '/' :: joinChar (ds ++ [seg]) '/' := by
      cases ds <;> rfl
    rw [h2, ih]
    simp

theorem extScan_through (u l acc : List Char) (hu : ∀ c ∈ u, c ≠ '/' ∧ c ≠ '.') :
    extScan (u ++ l) acc = extScan l (u.reverse ++ acc) := by
  induction u generalizing acc with
  | nil => simp
  | cons c rest ih =>
    have hc := hu c (by simp)
    simp only [List.cons_append]
    conv_lhs => rw [extScan]
    rw [if_neg hc.1, if_neg hc.2]
    rw [ih (c :: acc) (fun c' h' => hu c' (List.mem_cons_of_mem c h'))]
    simp

theorem filepathExt_concat (C w : GoStr) (hw : ∀ c ∈ w, c ≠ '/' ∧ c ≠ '.') :
    filepathExt (C ++ '.' :: w) = '.' :: w := by
  unfold filepathExt
  have hrev : (C ++ '.' :: w).reverse = w.reverse ++ '.' :: C.reverse := by simp
  rw [hrev, extScan_through w.reverse _ [] (fun c h => hw c (by simpa using h))]
  unfold extScan
  rw [if_neg (by decide), if_pos rfl]
  simp

theorem foldl_cleanSegsStep (segs : List GoStr) (acc : List GoStr) (rooted : Bool)
    (h : ∀ s ∈ segs, s ≠ [] ∧ s ≠ gs "." ∧ s ≠ gs "..") :
    segs.foldl (cleanSegsStep rooted) acc = segs.reverse ++ acc := by
  induction segs generalizing acc with
  | nil => simp
  | cons s rest ih =>
    have hs := h s (by simp)
    simp only [List.foldl_cons]
    have hstep : cleanSegsStep rooted acc s = s :: acc := by
      unfold cleanSegsStep
      rw [if_neg (by simp [hs.1, hs.2.1]), if_neg hs.2.2]
    rw [hstep, ih (s :: acc) (fun s' h' => h s' (List.mem_cons_of_mem s h'))]
    simp

theorem pathClean_id (p : GoStr) (hp : p ≠ [])
    (hroot : ¬ ((gs "/") <+: p))
    (hsegs : ∀ s ∈ splitChar p '/', s ≠ [] ∧ s ≠ gs "." ∧ s ≠ gs "..") :
    pathClean p = p := by
  unfold pathClean
  rw [if_neg hp]
  have hrootb : goHasPre p (gs "/") = false := by
    unfold goHasPre
    simpa using hroot
  rw [hrootb]
  simp only [Bool.false_eq_true, if_false]
  rw [foldl_cleanSegsStep (splitChar p '/') [] false hsegs]
  simp only [List.append_nil, List.reverse_reverse]
  rw [if_neg (splitChar_ne_nil p '/')]
  rw [joinChar_splitChar p '/']
  rfl

theorem filepathJoin_cons (a : GoStr) (rest : List GoStr) (ha : a ≠ []) :
    filepathJoin (a :: rest) = pathClean (joinChar (a :: rest) '/') := by
  unfold filepathJoin
  rw [if_neg ha]

theorem goIndexSub_single_none (s : GoStr) (c : Char) (h : c ∉ s) :
    goIndexSub s [c] = none := by
  induction s with
  | nil => simp [goIndexSub]
  | cons x rest ih =>
    have hx : x ≠ c := fun hh => h (hh ▸ List.mem_cons_self x rest)
    unfold goIndexSub
    rw [if_neg (by
      intro hcontra
      have : c = x := by simpa using List.cons_prefix_cons.mp hcontra |>.1
      exact hx this.symm)]
    rw [ih (fun hh => h (List.mem_cons_of_mem x hh))]
    rfl

theorem goIndexSub_single_at (A B : GoStr) (c : Char) (hA : c ∉ A) :
    goIndexSub (A ++ c :: B) [c] = some A.length := by
  induction A with
  | nil =>
    simp only [List.nil_append]
    unfold goIndexSub
    rw [if_pos (show [c] <+: c :: B from ⟨B, rfl⟩)]
    rfl
  | cons x rest ih =>
    have hx : x ≠ c := fun hh => hA (hh ▸ List.mem_cons_self x rest)
    simp only [List.cons_append]
    unfold goIndexSub
    rw [if_neg (by
      intro hcontra
      have : c = x := by simpa using List.cons_prefix_cons.mp hcontra |>.1
      exact hx this.symm)]
    rw [ih (fun hh => hA (List.mem_cons_of_mem x hh))]
    simp

theorem containsSub_single_false (s : GoStr) (c : Char) (h : c ∉ s) :
    containsSub s [c] = false := by
  unfold containsSub
  rw [goIndexSub_single_none s c h]
  rfl

theorem lastIndexChar_unique (X Y : GoStr) (c : Char) (hY : c ∉ Y) :
    lastIndexChar (X ++ c :: Y) c = some X.length := by
  unfold lastIndexChar
  have hrev : (X ++ c :: Y).reverse = Y.reverse ++ c :: X.reverse := by simp
  rw [hrev, goIndexSub_single_at Y.reverse X.reverse c (by simpa using hY)]
  simp only [Option.map_some']
  have hlen : (X ++ c :: Y).length = X.length + 1 + Y.length := by
    simp
    omega
  rw [hlen]
  simp only [List.length_reverse]
  congr 1
  omega

theorem goTrimSuf_append (X t : GoStr) : goTrimSuf (X ++ t) t = X := by
  unfold goTrimSuf
  rw [if_pos ⟨X, rfl⟩]
  have : (X ++ t).length - t.length = X.length := by simp
  rw [this, List.take_left]

theorem goTrimPre_cons (c : Char) (rest : GoStr) : goTrimPre (c :: rest) [c] = rest := by
  unfold goTrimPre
  rw [if_pos ⟨rest, rfl⟩]
  rfl

theorem queryUnescape_id (s : GoStr) (hs : ∀ c ∈ s, c ≠ '%' ∧ c ≠ '+') :
    queryUnescape s = .ok s := by
  induction s with
  | nil => rfl
  | cons c rest ih =>
    have hc := hs c (by simp)
    have hrest := ih (fun c' h' => hs c' (List.mem_cons_of_mem c h'))
    unfold queryUnescape
    split
    all_goals simp_all [Except.map]

theorem pathEscape_id (s : GoStr) (hs : ∀ c ∈ s, pathSegmentSafe c = true) :
    pathEscape s = s := by
  induction s with
  | nil => rfl
  | cons c rest ih =>
    unfold pathEscape
    simp only [List.flatMap_cons]
    rw [if_pos (hs c (by simp))]
    have := ih (fun c' h' => hs c' (List.mem_cons_of_mem c h'))
    unfold pathEscape at this
    rw [this]
    rfl

/-- Characters on which the whole query codec is the identity: alphanumerics
and `-`, `_`, `.`. -/
def plainQueryChar (c : Char) : Bool :=
  (48 ≤ c.toNat ∧ c.toNat ≤ 57) ∨ (65 ≤ c.toNat ∧ c.toNat ≤ 90) ∨
  (97 ≤ c.toNat ∧ c.toNat ≤ 122) ∨ c = '-' ∨ c = '_' ∨ c = '.'

theorem plainQueryChar_safe (c : Char) (h : plainQueryChar c = true) :
    pathSegmentSafe c = true := by
  simp only [plainQueryChar, Bool.decide_or, Bool.or_eq_true, decide_eq_true_eq] at h
  simp only [pathSegmentSafe, Bool.decide_or, Bool.or_eq_true, decide_eq_true_eq]
  tauto

theorem plainQueryChar_ne (c : Char) (h : plainQueryChar c = true) :
    c ≠ '%' ∧ c ≠ '+' ∧ c ≠ '&' ∧ c ≠ '=' ∧ c ≠ '/' ∧ c ≠ '~' ∧ c ≠ ';' := by
  refine ⟨?_, ?_, ?_, ?_, ?_, ?_, ?_⟩ <;>
    (intro heq; subst heq; revert h; decide)

/-- The `name=value` rendering of one query pair. -/
def pairStr (p : GoStr × GoStr) : GoStr := p.1 ++ '=' :: p.2

/-- A raw query rendered from pairs: `n1=v1&n2=v2&…`. -/
def queryOfPairs (pairs : List (GoStr × GoStr)) : GoStr :=
  joinChar (pairs.map pairStr) '&'

/-- Queries of plain-character pairs. -/
def PlainPairs (pairs : List (GoStr × GoStr)) : Prop :=
  pairs ≠ [] ∧ ∀ p ∈ pairs,
    (∀ c ∈ p.1, plainQueryChar c = true) ∧ (∀ c ∈ p.2, plainQueryChar c = true)

theorem mem_joinChar (xs : List GoStr) (sep : Char) (c : Char)
    (h : c ∈ joinChar xs sep) : c = sep ∨ ∃ x ∈ xs, c ∈ x := by
  induction xs with
  | nil => simp [joinChar] at h
  | cons x rest ih =>
    cases rest with
    | nil =>
      right
      exact ⟨x, by simp, by simpa [joinChar] using h⟩
    | cons y t =>
      have hj : joinChar (x :: y :: t) sep = x ++ sep :: joinChar (y :: t) sep := rfl
      rw [hj] at h
      rcases List.mem_append.mp h with hx | hrest
      · exact Or.inr ⟨x, by simp, hx⟩
      · rcases List.mem_cons.mp hrest with hc | hc
        · exact Or.inl hc
        · rcases ih hc with hsep | ⟨z, hz, hcz⟩
          · exact Or.inl hsep
          · exact Or.inr ⟨z, List.mem_cons_of_mem x hz, hcz⟩

theorem mem_queryOfPairs (pairs : List (GoStr × GoStr)) (c : Char)
    (hp : PlainPairs pairs) (h : c ∈ queryOfPairs pairs) :
    c = '&' ∨ c = '=' ∨ plainQueryChar c = true := by
  rcases mem_joinChar _ '&' c h with hsep | ⟨x, hx, hcx⟩
  · exact Or.inl hsep
  · rcases List.mem_map.mp hx with ⟨p, hpmem, hpx⟩
    subst hpx
    unfold pairStr at hcx
    rcases List.mem_append.mp hcx with h1 | h2
    · exact Or.inr (Or.inr ((hp.2 p hpmem).1 c h1))
    · rcases List.mem_cons.mp h2 with he | hv
      · exact Or.inr (Or.inl he)
      · exact Or.inr (Or.inr ((hp.2 p hpmem).2 c hv))

theorem amp_not_mem_pairStr (p : GoStr × GoStr)
    (h1 : ∀ c ∈ p.1, plainQueryChar c = true) (h2 : ∀ c ∈ p.2, plainQueryChar c = true) :
    '&' ∉ pairStr p := by
  intro hmem
  unfold pairStr at hmem
  rcases List.mem_append.mp hmem with h | h
  · exact (plainQueryChar_ne '&' (h1 '&' h)).2.2.1 rfl
  · rcases List.mem_cons.mp h with he | hv
    · exact absurd he.symm (by decide)
    · exact (plainQueryChar_ne '&' (h2 '&' hv)).2.2.1 rfl

theorem splitN2Eq_pair (n v : GoStr) (hn : '=' ∉ n) :
    splitN2Eq (n ++ '=' :: v) = (n, some v) := by
  unfold splitN2Eq
  rw [goIndexSub_single_at n v '=' hn]
  simp only
  have hd : List.drop (n.length + 1) (n ++ '=' :: v) = v := by
    have h1 : n ++ '=' :: v = (n ++ ['=']) ++ v := by simp
    have h2 : n.length + 1 = (n ++ ['=']).length := by simp
    rw [h1, h2, List.drop_left]
  rw [List.take_left, hd]

theorem splitChar_queryOfPairs (pairs : List (GoStr × GoStr)) (hp : PlainPairs pairs) :
    splitChar (queryOfPairs pairs) '&' = pairs.map pairStr := by
  unfold queryOfPairs
  apply splitChar_joinChar
  · simpa using hp.1
  · intro x hx
    rcases List.mem_map.mp hx with ⟨p, hpmem, hpx⟩
    subst hpx
    exact amp_not_mem_pairStr p (hp.2 p hpmem).1 (hp.2 p hpmem).2

theorem customEncodeQuery_id (pairs : List (GoStr × GoStr)) (hp : PlainPairs pairs) :
    customEncodeQuery (queryOfPairs pairs) = queryOfPairs pairs := by
  have hq : ∀ c ∈ queryOfPairs pairs, c ≠ '%' ∧ c ≠ '+' := by
    intro c hc
    rcases mem_queryOfPairs pairs c hp hc with h | h | h
    · subst h
      exact ⟨by decide, by decide⟩
    · subst h
      exact ⟨by decide, by decide⟩
    · exact ⟨(plainQueryChar_ne c h).1, (plainQueryChar_ne c h).2.1⟩
  have hne : queryOfPairs pairs ≠ [] := by
    unfold queryOfPairs
    rcases pairs with _ | ⟨p, rest⟩
    · exact absurd rfl hp.1
    · cases rest with
      | nil =>
        show joinChar [pairStr p] '&' ≠ []
        unfold joinChar pairStr
        simp
      | cons q t =>
        show pairStr p ++ '&' :: joinChar (pairStr q :: t.map pairStr) '&' ≠ []
        simp
  unfold customEncodeQuery
  rw [if_neg hne, queryUnescape_id _ hq]
  simp only
  rw [splitChar_queryOfPairs pairs hp]
  have hmap : (pairs.map pairStr).map
      (fun p => match splitN2Eq p with
                | (name, none) => pathEscape name
                | (name, some value) => pathEscape name ++ '=' :: pathEscape value) =
      pairs.map pairStr := by
    rw [List.map_map]
    apply List.map_congr_left
    intro p hpmem
    simp only [Function.comp_apply]
    have hn : '=' ∉ p.1 := fun hmem =>
      (plainQueryChar_ne '=' ((hp.2 p hpmem).1 '=' hmem)).2.2.2.1 rfl
    rw [show splitN2Eq (pairStr p) = (p.1, some p.2) from splitN2Eq_pair p.1 p.2 hn]
    dsimp only
    rw [pathEscape_id p.1 (fun c hc => plainQueryChar_safe c ((hp.2 p hpmem).1 c hc))]
    rw [pathEscape_id p.2 (fun c hc => plainQueryChar_safe c ((hp.2 p hpmem).2 c hc))]
    rfl
  rw [hmap]
  rfl

theorem customDecodeQuery_id (pairs : List (GoStr × GoStr)) (hp : PlainPairs pairs) :
    customDecodeQuery (queryOfPairs pairs) = queryOfPairs pairs := by
  have hne : queryOfPairs pairs ≠ [] := by
    unfold queryOfPairs
    rcases pairs with _ | ⟨p, rest⟩
    · exact absurd rfl hp.1
    · cases rest with
      | nil =>
        show joinChar [pairStr p] '&' ≠ []
        unfold joinChar pairStr
        simp
      | cons q t =>
        show pairStr p ++ '&' :: joinChar (pairStr q :: t.map pairStr) '&' ≠ []
        simp
  unfold customDecodeQuery
  rw [if_neg hne]
  simp only
  rw [splitChar_queryOfPairs pairs hp]
  have hmap : (pairs.map pairStr).map
      (fun p => match splitN2Eq p with
                | (name, none) =>
                  (match queryUnescape name with | .ok d => d | .error _ => name)
                | (name, some value) =>
                  (match queryUnescape name with | .ok d => d | .error _ => name) ++
                  '=' :: (match queryUnescape value with | .ok d => d | .error _ => value)) =
      pairs.map pairStr := by
    rw [List.map_map]
    apply List.map_congr_left
    intro p hpmem
    simp only [Function.comp_apply]
    have hn : '=' ∉ p.1 := fun hmem =>
      (plainQueryChar_ne '=' ((hp.2 p hpmem).1 '=' hmem)).2.2.2.1 rfl
    rw [show splitN2Eq (pairStr p) = (p.1, some p.2) from splitN2Eq_pair p.1 p.2 hn]
    dsimp only
    have hqn : queryUnescape p.1 = .ok p.1 :=
      queryUnescape_id p.1 (fun c hc =>
        ⟨(plainQueryChar_ne c ((hp.2 p hpmem).1 c hc)).1,
         (plainQueryChar_ne c ((hp.2 p hpmem).1 c hc)).2.1⟩)
    have hqv : queryUnescape p.2 = .ok p.2 :=
      queryUnescape_id p.2 (fun c hc =>
        ⟨(plainQueryChar_ne c ((hp.2 p hpmem).2 c hc)).1,
         (plainQueryChar_ne c ((hp.2 p hpmem).2 c hc)).2.1⟩)
    rw [hqn, hqv]
    rfl
  rw [hmap]
  rfl

theorem containsSub_single_true (s : GoStr) (c : Char) (h : c ∈ s) :
    containsSub s [c] = true := by
  induction s with
  | nil => simp at h
  | cons x rest ih =>
    unfold containsSub goIndexSub
    by_cases hx : [c] <+: x :: rest
    · rw [if_pos hx]
      rfl
    · rw [if_neg hx]
      have hcx : c ≠ x := by
        intro hc
        exact hx (by rw [hc]; exact ⟨rest, rfl⟩)
      have hcr : c ∈ rest := by
        rcases List.mem_cons.mp h with h1 | h1
        · exact absurd h1 hcx
        · exact h1
      have := ih hcr
      unfold containsSub at this
      cases hg : goIndexSub rest [c] with
      | none => rw [hg] at this; simp at this
      | some j => simp

theorem queryOfPairs_ne_nil (pairs : List (GoStr × GoStr)) (hne : pairs ≠ []) :
    queryOfPairs pairs ≠ [] := by
  unfold queryOfPairs
  rcases pairs with _ | ⟨p, rest⟩
  · exact absurd rfl hne
  · cases rest with
    | nil =>
      show joinChar [pairStr p] '&' ≠ []
      unfold joinChar pairStr
      simp
    | cons q t =>
      show pairStr p ++ '&' :: joinChar (pairStr q :: t.map pairStr) '&' ≠ []
      simp

/-- A path component that survives the join/split round trip: nonempty, free
of separators, and not a dot segment. -/
def SegPartOK (s : GoStr) : Prop :=
  s ≠ [] ∧ '/' ∉ s ∧ s ≠ gs "." ∧ s ≠ gs ".."

theorem segPartOK_goToLower (s : GoStr) (h : SegPartOK s) : SegPartOK (goToLower s) := by
  obtain ⟨h1, h2, h3, h4⟩ := h
  refine ⟨?_, ?_, ?_, ?_⟩
  · simpa [goToLower] using h1
  · intro hmem
    exact h2 ((mem_goToLower_iff s '/' (by decide) (by decide)).mp hmem)
  · intro heq
    exact h3 ((goToLower_eq_singleton_iff s '.' (by decide) (by decide)).mp heq)
  · intro heq
    exact h4 ((goToLower_eq_pair_iff s '.' (by decide) (by decide)).mp heq)

/-- Directory segments acceptable for the round trip. -/
def DirSegsOK (dirs : List GoStr) : Prop :=
  ∀ d ∈ dirs, d ≠ [] ∧ '/' ∉ d ∧ '~' ∉ d ∧ d ≠ gs "." ∧ d ≠ gs ".."

theorem notRoot_append (s t : GoStr) (hne : s ≠ []) (hmem : '/' ∉ s) :
    ¬ ((gs "/") <+: (s ++ t)) := by
  cases s with
  | nil => exact absurd rfl hne
  | cons x xs =>
    intro hpre
    have hpre' : ('/' :: ([] : GoStr)) <+: x :: (xs ++ t) := hpre
    have : '/' = x := (List.cons_prefix_cons.mp hpre').1
    exact hmem (this ▸ List.mem_cons_self x xs)

theorem fileSeg_ok (name extw : GoStr) (hname : '/' ∉ name)
    (hext : extw ≠ []) (hextc : ∀ c ∈ extw, c ≠ '/' ∧ c ≠ '.') :
    SegPartOK (name ++ '.' :: extw) := by
  refine ⟨by simp, ?_, ?_, ?_⟩
  · intro hmem
    rcases List.mem_append.mp hmem with h | h
    · exact hname h
    · rcases List.mem_cons.mp h with h1 | h1
      · exact absurd h1.symm (by decide)
      · exact (hextc '/' h1).1 rfl
  · intro heq
    have : (name ++ '.' :: extw).length = 1 := by rw [heq]; rfl
    simp only [List.length_append, List.length_cons] at this
    have hl : 0 < extw.length := List.length_pos.mpr hext
    omega
  · intro heq
    cases name with
    | nil =>
      simp only [List.nil_append] at heq
      have : extw = ['.'] := by
        have := List.cons.inj heq
        exact this.2
      exact (hextc '.' (by rw [this]; simp)).2 rfl
    | cons n0 nr =>
      simp only [List.cons_append] at heq
      have h2 := (List.cons.inj heq).2
      have : (nr ++ '.' :: extw).length = 1 := by rw [h2]; rfl
      simp only [List.length_append, List.length_cons] at this
      have hl : 0 < extw.length := List.length_pos.mpr hext
      omega

theorem goHasSuf_false_of (s suf : GoStr) (h : ¬ suf <:+ s) : goHasSuf s suf = false := by
  unfold goHasSuf
  simpa using h

theorem goHasSuf_true_of (s suf : GoStr) (h : suf <:+ s) : goHasSuf s suf = true := by
  unfold goHasSuf
  simpa using h

theorem joinChar_four (a b c d : GoStr) (sep : Char) :
    joinChar [a, b, c, d] sep = a ++ sep :: (b ++ sep :: (c ++ sep :: d)) := rfl

theorem splitChar_three (a b c R : GoStr) (ha : '/' ∉ a) (hb : '/' ∉ b) (hc : '/' ∉ c) :
    splitChar (a ++ '/' :: (b ++ '/' :: (c ++ '/' :: R))) '/' =
      a :: b :: c :: splitChar R '/' := by
  rw [splitChar_append_sep a _ '/' ha, splitChar_append_sep b _ '/' hb,
      splitChar_append_sep c _ '/' hc]

/-- Encoding a file-shaped path with no query. -/
theorem encode_file_noquery (hashFn : GoStr → GoStr) (method scheme host : GoStr)
    (dirs : List GoStr) (name extw : GoStr)
    (hm : SegPartOK method) (hs : SegPartOK scheme) (hh : SegPartOK host)
    (hdirs : DirSegsOK dirs)
    (hname : '/' ∉ name)
    (hext1 : extw ≠ []) (hextc : ∀ c ∈ extw, c ≠ '/' ∧ c ≠ '.') :
    methodURLToFilePath hashFn method scheme host
        ('/' :: (dirsConcat dirs ++ (name ++ '.' :: extw))) [] =
      .ok (goToLower method ++ '/' :: (goToLower scheme ++ '/' :: (goToLower host ++
           '/' :: (dirsConcat dirs ++ (name ++ '.' :: extw))))) := by
  have hml := segPartOK_goToLower method hm
  have hsl := segPartOK_goToLower scheme hs
  have hhl := segPartOK_goToLower host hh
  have hsegOK : SegPartOK (name ++ '.' :: extw) := fileSeg_ok name extw hname hext1 hextc
  unfold methodURLToFilePath methodURLToFilePathWithOptions
  dsimp only
  rw [if_neg hsl.1, if_neg (by exact hhl.1)]
  rw [if_neg (show ('/' :: (dirsConcat dirs ++ (name ++ '.' :: extw)) : GoStr) ≠ []
    from by simp)]
  have hnorm : normalizeResourcePath ('/' :: (dirsConcat dirs ++ (name ++ '.' :: extw))) =
      '/' :: (dirsConcat dirs ++ (name ++ '.' :: extw)) := by
    unfold normalizeResourcePath
    obtain ⟨pre, hpre⟩ := exists_pre_dirs dirs (name ++ '.' :: extw)
    have hnosuf : ¬ ((gs "/") <:+ ('/' :: dirsConcat dirs ++ (name ++ '.' :: extw))) := by
      rw [hpre]
      intro hcontra
      have := (suffix_sepseg pre (name ++ '.' :: extw) [] '/' hsegOK.2.1 (by simp)).mp
        hcontra
      exact hsegOK.1 this
    rw [goHasSuf_false_of _ _ (by simpa using hnosuf)]
    simp only [Bool.false_eq_true, if_false]
    have hextval : filepathExt ('/' :: (dirsConcat dirs ++ (name ++ '.' :: extw))) =
        '.' :: extw := by
      have hform : ('/' :: (dirsConcat dirs ++ (name ++ '.' :: extw)) : GoStr) =
          ('/' :: dirsConcat dirs ++ name) ++ '.' :: extw := by simp
      rw [hform]
      exact filepathExt_concat _ extw hextc
    rw [hextval]
    rw [if_neg (by simp)]
  rw [hnorm]
  rw [if_neg (show ¬ (([] : GoStr) ≠ []) from fun h => h rfl)]
  have htrim : goTrimPre ('/' :: (dirsConcat dirs ++ (name ++ '.' :: extw))) (gs "/") =
      dirsConcat dirs ++ (name ++ '.' :: extw) := goTrimPre_cons '/' _
  rw [htrim]
  rw [filepathJoin_cons _ _ hml.1, joinChar_four]
  have hsplit : splitChar (goToLower method ++ '/' :: (goToLower scheme ++ '/' ::
      (goToLower host ++ '/' :: (dirsConcat dirs ++ (name ++ '.' :: extw))))) '/' =
      goToLower method :: goToLower scheme :: goToLower host ::
        (dirs ++ [name ++ '.' :: extw]) := by
    rw [splitChar_three _ _ _ _ hml.2.1 hsl.2.1 hhl.2.1]
    rw [splitChar_dirsConcat dirs _ (fun d hd => (hdirs d hd).2.1) hsegOK.2.1]
  have hclean : pathClean (goToLower method ++ '/' :: (goToLower scheme ++ '/' ::
      (goToLower host ++ '/' :: (dirsConcat dirs ++ (name ++ '.' :: extw))))) =
      goToLower method ++ '/' :: (goToLower scheme ++ '/' ::
      (goToLower host ++ '/' :: (dirsConcat dirs ++ (name ++ '.' :: extw)))) := by
    apply pathClean_id
    · simp [hml.1]
    · exact notRoot_append _ _ hml.1 hml.2.1
    · rw [hsplit]
      intro s hmem
      rcases List.mem_cons.mp hmem with h1 | hmem1
      · subst h1; exact ⟨hml.1, hml.2.2.1, hml.2.2.2⟩
      rcases List.mem_cons.mp hmem1 with h1 | hmem2
      · subst h1; exact ⟨hsl.1, hsl.2.2.1, hsl.2.2.2⟩
      rcases List.mem_cons.mp hmem2 with h1 | hmem3
      · subst h1; exact ⟨hhl.1, hhl.2.2.1, hhl.2.2.2⟩
      rcases List.mem_append.mp hmem3 with h1 | h1
      · exact ⟨(hdirs s h1).1, (hdirs s h1).2.2.2.1, (hdirs s h1).2.2.2.2⟩
      · have : s = name ++ '.' :: extw := by simpa using h1
        subst this
        exact ⟨hsegOK.1, hsegOK.2.2.1, hsegOK.2.2.2⟩
  rw [hclean]

theorem mem_dirsConcat (dirs : List GoStr) (c : Char) (h : c ∈ dirsConcat dirs) :
    c = '/' ∨ ∃ d ∈ dirs, c ∈ d := by
  induction dirs with
  | nil => simp [dirsConcat] at h
  | cons d ds ih =>
    rw [dirsConcat_cons] at h
    rcases List.mem_append.mp h with h1 | h1
    · exact Or.inr ⟨d, by simp, h1⟩
    · rcases List.mem_cons.mp h1 with h2 | h2
      · exact Or.inl h2
      · rcases ih h2 with h3 | ⟨d', hd', hcd'⟩
        · exact Or.inl h3
        · exact Or.inr ⟨d', List.mem_cons_of_mem d hd', hcd'⟩

/-- Decoding a stored file-shaped path with no embedded query. -/
theorem decode_file_noquery (ml pl hl : GoStr) (dirs : List GoStr) (seg : GoStr)
    (hml : '/' ∉ ml) (hpl : '/' ∉ pl) (hhl : '/' ∉ hl)
    (hdirs : ∀ d ∈ dirs, '/' ∉ d ∧ '~' ∉ d)
    (hseg1 : '/' ∉ seg) (hseg2 : '~' ∉ seg) (hseg3 : seg ≠ gs "index.html") :
    filePathToMethodURL (ml ++ '/' :: (pl ++ '/' :: (hl ++ '/' ::
        (dirsConcat dirs ++ seg)))) =
      .ok (goToUpper ml, pl ++ gs "://" ++ hl ++ ('/' :: (dirsConcat dirs ++ seg))) := by
  unfold filePathToMethodURL
  rw [splitChar_three _ _ _ _ hml hpl hhl,
      splitChar_dirsConcat dirs seg (fun d hd => (hdirs d hd).1) hseg1]
  dsimp only
  rw [if_neg (by simp)]
  simp only [List.getD_cons_zero, List.getD_cons_succ, List.drop_succ_cons,
    List.drop_zero]
  rw [joinChar_dirsConcat]
  obtain ⟨pre, hpre⟩ := exists_pre_dirs dirs seg
  have hnosuf : ¬ ((gs "/index.html") <:+ ('/' :: dirsConcat dirs ++ seg)) := by
    rw [hpre]
    intro hcontra
    have hcontra' : ('/' :: gs "index.html") <:+ (pre ++ '/' :: seg) := hcontra
    have := (suffix_sepseg pre seg (gs "index.html") '/' hseg1 (by decide)).mp hcontra'
    exact hseg3 this
  rw [goHasSuf_false_of _ _ (by simpa using hnosuf)]
  simp only [Bool.false_eq_true, if_false]
  have hnotilde : '~' ∉ ('/' :: (dirsConcat dirs ++ seg) : GoStr) := by
    intro hmem
    rcases List.mem_cons.mp hmem with h1 | h1
    · exact absurd h1.symm (by decide)
    · rcases List.mem_append.mp h1 with h2 | h2
      · rcases mem_dirsConcat dirs '~' h2 with h3 | ⟨d, hd, hcd⟩
        · exact absurd h3.symm (by decide)
        · exact (hdirs d hd).2 hcd
      · exact hseg2 h2
  rw [show (gs "~") = ['~'] from rfl]
  rw [containsSub_single_false _ '~' (by simpa using hnotilde)]
  simp only [Bool.false_eq_true, if_false]
  rw [if_neg (show ¬ (([] : GoStr) ≠ []) from fun h => h rfl)]
  simp

/-- Encoding a directory-shaped path (trailing `/`) with no query. -/
theorem encode_dir_noquery (hashFn : GoStr → GoStr) (method scheme host : GoStr)
    (dirs : List GoStr)
    (hm : SegPartOK method) (hs : SegPartOK scheme) (hh : SegPartOK host)
    (hdirs : DirSegsOK dirs) :
    methodURLToFilePath hashFn method scheme host ('/' :: dirsConcat dirs) [] =
      .ok (goToLower method ++ '/' :: (goToLower scheme ++ '/' :: (goToLower host ++
           '/' :: (dirsConcat dirs ++ gs "index.html")))) := by
  have hml := segPartOK_goToLower method hm
  have hsl := segPartOK_goToLower scheme hs
  have hhl := segPartOK_goToLower host hh
  have hidxOK : SegPartOK (gs "index.html") := by
    refine ⟨by decide, by decide, by decide, by decide⟩
  unfold methodURLToFilePath methodURLToFilePathWithOptions
  dsimp only
  rw [if_neg hsl.1, if_neg (by exact hhl.1)]
  rw [if_neg (show ('/' :: dirsConcat dirs : GoStr) ≠ [] from by simp)]
  have hnorm : normalizeResourcePath ('/' :: dirsConcat dirs) =
      '/' :: (dirsConcat dirs ++ gs "index.html") := by
    unfold normalizeResourcePath
    obtain ⟨u, hu⟩ := slash_dirsConcat_ends_slash dirs
    have hsuf : (gs "/") <:+ ('/' :: dirsConcat dirs) := by
      rw [hu]
      exact ⟨u, rfl⟩
    rw [goHasSuf_true_of _ _ hsuf]
    simp
  rw [hnorm]
  rw [if_neg (show ¬ (([] : GoStr) ≠ []) from fun h => h rfl)]
  have htrim : goTrimPre ('/' :: (dirsConcat dirs ++ gs "index.html")) (gs "/") =
      dirsConcat dirs ++ gs "index.html" := goTrimPre_cons '/' _
  rw [htrim]
  rw [filepathJoin_cons _ _ hml.1, joinChar_four]
  have hsplit : splitChar (goToLower method ++ '/' :: (goToLower scheme ++ '/' ::
      (goToLower host ++ '/' :: (dirsConcat dirs ++ gs "index.html")))) '/' =
      goToLower method :: goToLower scheme :: goToLower host ::
        (dirs ++ [gs "index.html"]) := by
    rw [splitChar_three _ _ _ _ hml.2.1 hsl.2.1 hhl.2.1]
    rw [splitChar_dirsConcat dirs _ (fun d hd => (hdirs d hd).2.1) hidxOK.2.1]
  have hclean : pathClean (goToLower method ++ '/' :: (goToLower scheme ++ '/' ::
      (goToLower host ++ '/' :: (dirsConcat dirs ++ gs "index.html")))) =
      goToLower method ++ '/' :: (goToLower scheme ++ '/' ::
      (goToLower host ++ '/' :: (dirsConcat dirs ++ gs "index.html"))) := by
    apply pathClean_id
    · simp [hml.1]
    · exact notRoot_append _ _ hml.1 hml.2.1
    · rw [hsplit]
      intro s hmem
      rcases List.mem_cons.mp hmem with h1 | hmem1
      · subst h1; exact ⟨hml.1, hml.2.2.1, hml.2.2.2⟩
      rcases List.mem_cons.mp hmem1 with h1 | hmem2
      · subst h1; exact ⟨hsl.1, hsl.2.2.1, hsl.2.2.2⟩
      rcases List.mem_cons.mp hmem2 with h1 | hmem3
      · subst h1; exact ⟨hhl.1, hhl.2.2.1, hhl.2.2.2⟩
      rcases List.mem_append.mp hmem3 with h1 | h1
      · exact ⟨(hdirs s h1).1, (hdirs s h1).2.2.2.1, (hdirs s h1).2.2.2.2⟩
      · have : s = gs "index.html" := by simpa using h1
        subst this
        exact ⟨hidxOK.1, hidxOK.2.2.1, hidxOK.2.2.2⟩
  rw [hclean]

/-- Decoding a stored directory-shaped path: the synthetic `index.html` is
stripped back to the trailing-slash directory URL. -/
theorem decode_dir_noquery (ml pl hl : GoStr) (dirs : List GoStr)
    (hml : '/' ∉ ml) (hpl : '/' ∉ pl) (hhl : '/' ∉ hl)
    (hdirs : ∀ d ∈ dirs, '/' ∉ d ∧ '~' ∉ d) :
    filePathToMethodURL (ml ++ '/' :: (pl ++ '/' :: (hl ++ '/' ::
        (dirsConcat dirs ++ gs "index.html")))) =
      .ok (goToUpper ml, pl ++ gs "://" ++ hl ++ ('/' :: dirsConcat dirs)) := by
  unfold filePathToMethodURL
  rw [splitChar_three _ _ _ _ hml hpl hhl,
      splitChar_dirsConcat dirs _ (fun d hd => (hdirs d hd).1) (by decide)]
  dsimp only
  rw [if_neg (by simp)]
  simp only [List.getD_cons_zero, List.getD_cons_succ, List.drop_succ_cons,
    List.drop_zero]
  rw [joinChar_dirsConcat]
  have hsuf : (gs "/index.html") <:+ ('/' :: (dirsConcat dirs ++ gs "index.html")) := by
    obtain ⟨pre, hpre⟩ := exists_pre_dirs dirs (gs "index.html")
    have : ('/' :: (dirsConcat dirs ++ gs "index.html") : GoStr) =
        pre ++ '/' :: gs "index.html" := by simpa using hpre
    rw [this]
    exact ⟨pre, rfl⟩
  rw [goHasSuf_true_of _ _ (by simpa using hsuf)]
  simp only [if_true]
  have htrim : goTrimSuf ('/' :: (dirsConcat dirs ++ gs "index.html")) (gs "index.html") =
      '/' :: dirsConcat dirs := by
    have : ('/' :: (dirsConcat dirs ++ gs "index.html") : GoStr) =
        ('/' :: dirsConcat dirs) ++ gs "index.html" := by simp
    rw [this]
    exact goTrimSuf_append _ _
  rw [htrim]
  have hnotilde : '~' ∉ ('/' :: dirsConcat dirs : GoStr) := by
    intro hmem
    rcases List.mem_cons.mp hmem with h1 | h1
    · exact absurd h1.symm (by decide)
    · rcases mem_dirsConcat dirs '~' h1 with h3 | ⟨d, hd, hcd⟩
      · exact absurd h3.symm (by decide)
      · exact (hdirs d hd).2 hcd
  rw [show (gs "~") = ['~'] from rfl]
  rw [containsSub_single_false _ '~' (by simpa using hnotilde)]
  simp only [Bool.false_eq_true, if_false]
  rw [if_neg (show ¬ (([] : GoStr) ≠ []) from fun h => h rfl)]
  simp

theorem tilde_not_mem_queryOfPairs (pairs : List (GoStr × GoStr)) (hp : PlainPairs pairs) :
    '~' ∉ queryOfPairs pairs := by
  intro hmem
  rcases mem_queryOfPairs pairs '~' hp hmem with h | h | h
  · exact absurd h (by decide)
  · exact absurd h (by decide)
  · exact (plainQueryChar_ne '~' h).2.2.2.2.2.1 rfl

theorem slash_not_mem_queryOfPairs (pairs : List (GoStr × GoStr)) (hp : PlainPairs pairs) :
    '/' ∉ queryOfPairs pairs := by
  intro hmem
  rcases mem_queryOfPairs pairs '/' hp hmem with h | h | h
  · exact absurd h (by decide)
  · exact absurd h (by decide)
  · exact (plainQueryChar_ne '/' h).2.2.2.2.1 rfl

/-- Encoding a file-shaped path with a short plain query: the query is
embedded before the extension with `~`. -/
theorem encode_file_query (hashFn : GoStr → GoStr) (method scheme host : GoStr)
    (dirs : List GoStr) (name extw : GoStr) (pairs : List (GoStr × GoStr))
    (hm : SegPartOK method) (hs : SegPartOK scheme) (hh : SegPartOK host)
    (hdirs : DirSegsOK dirs)
    (hname : '/' ∉ name)
    (hext1 : extw ≠ []) (hextc : ∀ c ∈ extw, c ≠ '/' ∧ c ≠ '.' ∧ c ≠ '~')
    (hnotidx : name ++ '.' :: extw ≠ gs "index.html")
    (hp : PlainPairs pairs)
    (hlen : (queryOfPairs pairs).length ≤ 32) :
    methodURLToFilePath hashFn method scheme host
        ('/' :: (dirsConcat dirs ++ (name ++ '.' :: extw))) (queryOfPairs pairs) =
      .ok (goToLower method ++ '/' :: (goToLower scheme ++ '/' :: (goToLower host ++
           '/' :: (dirsConcat dirs ++
             (name ++ '~' :: (queryOfPairs pairs ++ '.' :: extw)))))) := by
  have hml := segPartOK_goToLower method hm
  have hsl := segPartOK_goToLower scheme hs
  have hhl := segPartOK_goToLower host hh
  have hextc' : ∀ c ∈ extw, c ≠ '/' ∧ c ≠ '.' := fun c hc =>
    ⟨(hextc c hc).1, (hextc c hc).2.1⟩
  have hsegOK : SegPartOK (name ++ '.' :: extw) := fileSeg_ok name extw hname hext1 hextc'
  have hqne : queryOfPairs pairs ≠ [] := queryOfPairs_ne_nil pairs hp.1
  have hqslash : '/' ∉ queryOfPairs pairs := slash_not_mem_queryOfPairs pairs hp
  have hqtilde : '~' ∉ queryOfPairs pairs := tilde_not_mem_queryOfPairs pairs hp
  have hsegOK' : SegPartOK (name ++ '~' :: (queryOfPairs pairs ++ '.' :: extw)) := by
    refine ⟨by simp, ?_, ?_, ?_⟩
    · intro hmem
      rcases List.mem_append.mp hmem with h | h
      · exact hname h
      · rcases List.mem_cons.mp h with h1 | h1
        · exact absurd h1.symm (by decide)
        · rcases List.mem_append.mp h1 with h2 | h2
          · exact hqslash h2
          · rcases List.mem_cons.mp h2 with h3 | h3
            · exact absurd h3.symm (by decide)
            · exact (hextc '/' h3).1 rfl
    · intro heq
      have h2 : '~' ∈ (gs "." : GoStr) := by
        rw [← heq]
        simp
      exact absurd h2 (by decide)
    · intro heq
      have h2 : '~' ∈ (gs ".." : GoStr) := by
        rw [← heq]
        simp
      exact absurd h2 (by decide)
  unfold methodURLToFilePath methodURLToFilePathWithOptions
  dsimp only
  rw [if_neg hsl.1, if_neg (by exact hhl.1)]
  rw [if_neg (show ('/' :: (dirsConcat dirs ++ (name ++ '.' :: extw)) : GoStr) ≠ []
    from by simp)]
  have hnorm : normalizeResourcePath ('/' :: (dirsConcat dirs ++ (name ++ '.' :: extw))) =
      '/' :: (dirsConcat dirs ++ (name ++ '.' :: extw)) := by
    unfold normalizeResourcePath
    obtain ⟨pre, hpre⟩ := exists_pre_dirs dirs (name ++ '.' :: extw)
    have hnosuf : ¬ ((gs "/") <:+ ('/' :: dirsConcat dirs ++ (name ++ '.' :: extw))) := by
      rw [hpre]
      intro hcontra
      have := (suffix_sepseg pre (name ++ '.' :: extw) [] '/' hsegOK.2.1 (by simp)).mp
        hcontra
      exact hsegOK.1 this
    rw [goHasSuf_false_of _ _ (by simpa using hnosuf)]
    simp only [Bool.false_eq_true, if_false]
    have hextval : filepathExt ('/' :: (dirsConcat dirs ++ (name ++ '.' :: extw))) =
        '.' :: extw := by
      have hform : ('/' :: (dirsConcat dirs ++ (name ++ '.' :: extw)) : GoStr) =
          ('/' :: dirsConcat dirs ++ name) ++ '.' :: extw := by simp
      rw [hform]
      exact filepathExt_concat _ extw hextc'
    rw [hextval]
    rw [if_neg (by simp)]
  rw [hnorm]
  rw [if_pos hqne]
  have hhandle : handleURLParameters hashFn
      ('/' :: (dirsConcat dirs ++ (name ++ '.' :: extw))) (queryOfPairs pairs)
      defaultResourcePathOptions =
      '/' :: (dirsConcat dirs ++ (name ++ '~' :: (queryOfPairs pairs ++ '.' :: extw))) := by
    unfold handleURLParameters
    rw [customEncodeQuery_id pairs hp]
    dsimp only
    rw [if_neg (show ¬ (defaultResourcePathOptions.maxParamLength <
        (queryOfPairs pairs).length) from by
      have h32 : defaultResourcePathOptions.maxParamLength = 32 := rfl
      omega)]
    obtain ⟨pre, hpre⟩ := exists_pre_dirs dirs (name ++ '.' :: extw)
    have hnosuf : ¬ ((gs "/index.html") <:+
        ('/' :: dirsConcat dirs ++ (name ++ '.' :: extw))) := by
      rw [hpre]
      intro hcontra
      have hcontra' : ('/' :: gs "index.html") <:+ (pre ++ '/' :: (name ++ '.' :: extw)) :=
        hcontra
      have := (suffix_sepseg pre (name ++ '.' :: extw) (gs "index.html") '/'
        hsegOK.2.1 (by decide)).mp hcontra'
      exact hnotidx this
    rw [goHasSuf_false_of _ _ (by simpa using hnosuf)]
    simp only [Bool.false_eq_true, if_false]
    have hextval : filepathExt ('/' :: (dirsConcat dirs ++ (name ++ '.' :: extw))) =
        '.' :: extw := by
      have hform : ('/' :: (dirsConcat dirs ++ (name ++ '.' :: extw)) : GoStr) =
          ('/' :: dirsConcat dirs ++ name) ++ '.' :: extw := by simp
      rw [hform]
      exact filepathExt_concat _ extw hextc'
    rw [hextval]
    have htrimsuf : goTrimSuf ('/' :: (dirsConcat dirs ++ (name ++ '.' :: extw)))
        ('.' :: extw) = '/' :: (dirsConcat dirs ++ name) := by
      have hform : ('/' :: (dirsConcat dirs ++ (name ++ '.' :: extw)) : GoStr) =
          ('/' :: (dirsConcat dirs ++ name)) ++ '.' :: extw := by simp
      rw [hform]
      exact goTrimSuf_append _ _
    rw [htrimsuf]
    simp
  rw [hhandle]
  have htrim : goTrimPre ('/' :: (dirsConcat dirs ++
      (name ++ '~' :: (queryOfPairs pairs ++ '.' :: extw)))) (gs "/") =
      dirsConcat dirs ++ (name ++ '~' :: (queryOfPairs pairs ++ '.' :: extw)) :=
    goTrimPre_cons '/' _
  rw [htrim]
  rw [filepathJoin_cons _ _ hml.1, joinChar_four]
  have hsplit : splitChar (goToLower method ++ '/' :: (goToLower scheme ++ '/' ::
      (goToLower host ++ '/' :: (dirsConcat dirs ++
        (name ++ '~' :: (queryOfPairs pairs ++ '.' :: extw)))))) '/' =
      goToLower method :: goToLower scheme :: goToLower host ::
        (dirs ++ [name ++ '~' :: (queryOfPairs pairs ++ '.' :: extw)]) := by
    rw [splitChar_three _ _ _ _ hml.2.1 hsl.2.1 hhl.2.1]
    rw [splitChar_dirsConcat dirs _ (fun d hd => (hdirs d hd).2.1) hsegOK'.2.1]
  have hclean : pathClean (goToLower method ++ '/' :: (goToLower scheme ++ '/' ::
      (goToLower host ++ '/' :: (dirsConcat dirs ++
        (name ++ '~' :: (queryOfPairs pairs ++ '.' :: extw)))))) =
      goToLower method ++ '/' :: (goToLower scheme ++ '/' ::
      (goToLower host ++ '/' :: (dirsConcat dirs ++
        (name ++ '~' :: (queryOfPairs pairs ++ '.' :: extw))))) := by
    apply pathClean_id
    · simp [hml.1]
    · exact notRoot_append _ _ hml.1 hml.2.1
    · rw [hsplit]
      intro s hmem
      rcases List.mem_cons.mp hmem with h1 | hmem1
      · subst h1; exact ⟨hml.1, hml.2.2.1, hml.2.2.2⟩
      rcases List.mem_cons.mp hmem1 with h1 | hmem2
      · subst h1; exact ⟨hsl.1, hsl.2.2.1, hsl.2.2.2⟩
      rcases List.mem_cons.mp hmem2 with h1 | hmem3
      · subst h1; exact ⟨hhl.1, hhl.2.2.1, hhl.2.2.2⟩
      rcases List.mem_append.mp hmem3 with h1 | h1
      · exact ⟨(hdirs s h1).1, (hdirs s h1).2.2.2.1, (hdirs s h1).2.2.2.2⟩
      · have : s = name ++ '~' :: (queryOfPairs pairs ++ '.' :: extw) := by
          simpa using h1
        subst this
        exact ⟨hsegOK'.1, hsegOK'.2.2.1, hsegOK'.2.2.2⟩
  rw [hclean]

/-- Decoding a stored file path whose final segment embeds a plain query
with `~` recovers the original path and query. -/
theorem decode_file_query (ml pl hl : GoStr) (dirs : List GoStr)
    (name extw : GoStr) (pairs : List (GoStr × GoStr))
    (hml : '/' ∉ ml) (hpl : '/' ∉ pl) (hhl : '/' ∉ hl)
    (hdirs : ∀ d ∈ dirs, '/' ∉ d)
    (hname : '/' ∉ name)
    (hextc : ∀ c ∈ extw, c ≠ '/' ∧ c ≠ '.' ∧ c ≠ '~')
    (hp : PlainPairs pairs)
    (hnoidx : containsSub ('/' :: (dirsConcat dirs ++ name)) (gs "/index") = false) :
    filePathToMethodURL (ml ++ '/' :: (pl ++ '/' :: (hl ++ '/' ::
        (dirsConcat dirs ++ (name ++ '~' :: (queryOfPairs pairs ++ '.' :: extw)))))) =
      .ok (goToUpper ml, pl ++ gs "://" ++ hl ++
           ('/' :: (dirsConcat dirs ++ (name ++ '.' :: extw))) ++
           '?' :: queryOfPairs pairs) := by
  have hqslash : '/' ∉ queryOfPairs pairs := slash_not_mem_queryOfPairs pairs hp
  have hqtilde : '~' ∉ queryOfPairs pairs := tilde_not_mem_queryOfPairs pairs hp
  have hqne : queryOfPairs pairs ≠ [] := queryOfPairs_ne_nil pairs hp.1
  have hseg1 : '/' ∉ (name ++ '~' :: (queryOfPairs pairs ++ '.' :: extw) : GoStr) := by
    intro hmem
    rcases List.mem_append.mp hmem with h | h
    · exact hname h
    · rcases List.mem_cons.mp h with h1 | h1
      · exact absurd h1.symm (by decide)
      · rcases List.mem_append.mp h1 with h2 | h2
        · exact hqslash h2
        · rcases List.mem_cons.mp h2 with h3 | h3
          · exact absurd h3.symm (by decide)
          · exact (hextc '/' h3).1 rfl
  unfold filePathToMethodURL
  rw [splitChar_three _ _ _ _ hml hpl hhl,
      splitChar_dirsConcat dirs _ hdirs hseg1]
  dsimp only
  rw [if_neg (by simp)]
  simp only [List.getD_cons_zero, List.getD_cons_succ, List.drop_succ_cons,
    List.drop_zero]
  rw [joinChar_dirsConcat]
  obtain ⟨pre, hpre⟩ := exists_pre_dirs dirs
    (name ++ '~' :: (queryOfPairs pairs ++ '.' :: extw))
  have hnosuf : ¬ ((gs "/index.html") <:+ ('/' :: dirsConcat dirs ++
      (name ++ '~' :: (queryOfPairs pairs ++ '.' :: extw)))) := by
    rw [hpre]
    intro hcontra
    have hcontra' : ('/' :: gs "index.html") <:+
        (pre ++ '/' :: (name ++ '~' :: (queryOfPairs pairs ++ '.' :: extw))) := hcontra
    have hseqeq := (suffix_sepseg pre _ (gs "index.html") '/' hseg1 (by decide)).mp
      hcontra'
    have htmem : '~' ∈ (gs "index.html" : GoStr) := by
      rw [← hseqeq]
      simp
    exact absurd htmem (by decide)
  rw [goHasSuf_false_of _ _ (by simpa using hnosuf)]
  simp only [Bool.false_eq_true, if_false]
  have hform : ('/' :: (dirsConcat dirs ++
      (name ++ '~' :: (queryOfPairs pairs ++ '.' :: extw))) : GoStr) =
      ('/' :: (dirsConcat dirs ++ name)) ++
        '~' :: (queryOfPairs pairs ++ '.' :: extw) := by simp
  rw [hform]
  have htmem : '~' ∈ (('/' :: (dirsConcat dirs ++ name)) ++
      '~' :: (queryOfPairs pairs ++ '.' :: extw) : GoStr) := by simp
  rw [show (gs "~") = ['~'] from rfl]
  rw [containsSub_single_true _ '~' htmem]
  simp only [if_true]
  have hYtilde : '~' ∉ (queryOfPairs pairs ++ '.' :: extw : GoStr) := by
    intro hmem
    rcases List.mem_append.mp hmem with h | h
    · exact hqtilde h
    · rcases List.mem_cons.mp h with h1 | h1
      · exact absurd h1.symm (by decide)
      · exact (hextc '~' h1).2.2 rfl
  rw [lastIndexChar_unique _ _ '~' hYtilde]
  dsimp only
  have hextval : filepathExt (('/' :: (dirsConcat dirs ++ name)) ++
      '~' :: (queryOfPairs pairs ++ '.' :: extw)) = '.' :: extw := by
    have hform2 : (('/' :: (dirsConcat dirs ++ name)) ++
        '~' :: (queryOfPairs pairs ++ '.' :: extw) : GoStr) =
        (('/' :: (dirsConcat dirs ++ name)) ++ '~' :: queryOfPairs pairs) ++
          '.' :: extw := by simp
    rw [hform2]
    exact filepathExt_concat _ extw (fun c hc => ⟨(hextc c hc).1, (hextc c hc).2.1⟩)
  rw [hextval]
  rw [if_pos (show ('.' :: extw : GoStr) ≠ [] from by simp)]
  have hdrop : (('/' :: (dirsConcat dirs ++ name)) ++
      '~' :: (queryOfPairs pairs ++ '.' :: extw) : GoStr).drop
      (('/' :: (dirsConcat dirs ++ name) : GoStr).length + 1) =
      queryOfPairs pairs ++ '.' :: extw := by
    rw [show (('/' :: (dirsConcat dirs ++ name)) ++
        '~' :: (queryOfPairs pairs ++ '.' :: extw) : GoStr) =
        (('/' :: (dirsConcat dirs ++ name)) ++ ['~']) ++
          (queryOfPairs pairs ++ '.' :: extw) from by simp]
    rw [show (('/' :: (dirsConcat dirs ++ name) : GoStr).length + 1) =
        (('/' :: (dirsConcat dirs ++ name)) ++ ['~'] : GoStr).length from by
      simp
      omega]
    exact List.drop_left _ _
  rw [hdrop]
  rw [goTrimSuf_append (queryOfPairs pairs) ('.' :: extw)]
  have htake : (('/' :: (dirsConcat dirs ++ name)) ++
      '~' :: (queryOfPairs pairs ++ '.' :: extw) : GoStr).take
      ('/' :: (dirsConcat dirs ++ name) : GoStr).length =
      '/' :: (dirsConcat dirs ++ name) := List.take_left _ _
  rw [htake]
  rw [if_neg (show ¬ (containsSub ('/' :: (dirsConcat dirs ++ name))
      (gs "/index") = true ∧ ('.' :: extw : GoStr) = gs ".html") from by
    intro hc
    rw [hnoidx] at hc
    exact absurd hc.1 (by decide))]
  rw [customDecodeQuery_id pairs hp]
  dsimp only
  rw [if_pos hqne]
  simp

/-- Path/query shapes on which the codec is an exact round trip: a directory
path (trailing slash, empty query), or a file path with a non-empty dot
extension that is not `index.html`, carrying either no query or a plain
`n=v&…` query of length at most `MaxParamLength` whose directory part does
not contain `/index`. -/
def RoundTripShape (p q : GoStr) : Prop :=
  (q = [] ∧ ∃ dirs : List GoStr, DirSegsOK dirs ∧ p = '/' :: dirsConcat dirs) ∨
  (∃ dirs name extw,
     DirSegsOK dirs ∧ '/' ∉ name ∧ '~' ∉ name ∧ extw ≠ [] ∧
     (∀ c ∈ extw, c ≠ '/' ∧ c ≠ '.' ∧ c ≠ '~') ∧
     name ++ '.' :: extw ≠ gs "index.html" ∧
     p = '/' :: (dirsConcat dirs ++ (name ++ '.' :: extw)) ∧
     (q = [] ∨
      (∃ pairs, PlainPairs pairs ∧ q = queryOfPairs pairs ∧ q.length ≤ 32 ∧
       containsSub ('/' :: (dirsConcat dirs ++ name)) (gs "/index") = false)))

/-- C1 (corrected): for every method, scheme and host made of ordinary path
segments and every path/query of round-trip shape (directory path with empty
query, or extension-bearing file path with empty or plain short query),
`FilePathToMethodURL` after `MethodURLToFilePath` returns exactly the
normalized pair: method upper-cased, scheme and host lower-cased, and the
path — including a trailing slash — preserved verbatim, with the query
reattached after `?` when present. -/
theorem pathCodec_roundtrip (hashFn : GoStr → GoStr)
    (method scheme host p q : GoStr)
    (hm : SegPartOK method) (hs : SegPartOK scheme) (hh : SegPartOK host)
    (hshape : RoundTripShape p q) :
    (methodURLToFilePath hashFn method scheme host p q).bind filePathToMethodURL =
      .ok (goToUpper method,
           goToLower scheme ++ gs "://" ++ goToLower host ++ p ++
           (if q = [] then [] else '?' :: q)) := by
  have hml := segPartOK_goToLower method hm
  have hsl := segPartOK_goToLower scheme hs
  have hhl := segPartOK_goToLower host hh
  rcases hshape with ⟨hq, dirs, hdirs, hpeq⟩ |
    ⟨dirs, name, extw, hdirs, hn1, hn2, he1, hec, hnotidx, hpeq, hqcase⟩
  · subst hpeq; subst hq
    rw [encode_dir_noquery hashFn method scheme host dirs hm hs hh hdirs]
    simp only [Except.bind]
    rw [decode_dir_noquery _ _ _ dirs hml.2.1 hsl.2.1 hhl.2.1
      (fun d hd => ⟨(hdirs d hd).2.1, (hdirs d hd).2.2.1⟩)]
    rw [goToUpper_goToLower]
    simp
  · subst hpeq
    rcases hqcase with hq | ⟨pairs, hpp, hqeq, hlen, hnoidx⟩
    · subst hq
      rw [encode_file_noquery hashFn method scheme host dirs name extw hm hs hh hdirs
        hn1 he1 (fun c hc => ⟨(hec c hc).1, (hec c hc).2.1⟩)]
      simp only [Except.bind]
      have hseg2 : '~' ∉ (name ++ '.' :: extw : GoStr) := by
        intro hmem
        rcases List.mem_append.mp hmem with h | h
        · exact hn2 h
        · rcases List.mem_cons.mp h with h1 | h1
          · exact absurd h1.symm (by decide)
          · exact (hec '~' h1).2.2 rfl
      have hseg1 : '/' ∉ (name ++ '.' :: extw : GoStr) := by
        intro hmem
        rcases List.mem_append.mp hmem with h | h
        · exact hn1 h
        · rcases List.mem_cons.mp h with h1 | h1
          · exact absurd h1.symm (by decide)
          · exact (hec '/' h1).1 rfl
      rw [decode_file_noquery _ _ _ dirs (name ++ '.' :: extw) hml.2.1 hsl.2.1 hhl.2.1
        (fun d hd => ⟨(hdirs d hd).2.1, (hdirs d hd).2.2.1⟩) hseg1 hseg2 hnotidx]
      rw [goToUpper_goToLower]
      simp
    · subst hqeq
      rw [encode_file_query hashFn method scheme host dirs name extw pairs hm hs hh
        hdirs hn1 he1 hec hnotidx hpp hlen]
      simp only [Except.bind]
      rw [decode_file_query _ _ _ dirs name extw pairs hml.2.1 hsl.2.1 hhl.2.1
        (fun d hd => (hdirs d hd).2.1) hn1 hec hpp hnoidx]
      rw [goToUpper_goToLower]
      rw [if_neg (queryOfPairs_ne_nil pairs hpp.1)]

theorem pathCodec_roundtrip_witness :
    (methodURLToFilePath nullHashFn (gs "GET") (gs "http") (gs "Example.com")
        ('/' :: (dirsConcat [gs "a"] ++ (gs "b" ++ '.' :: gs "txt")))
        (queryOfPairs [(gs "x", gs "1")])).bind filePathToMethodURL =
      .ok (goToUpper (gs "GET"),
           goToLower (gs "http") ++ gs "://" ++ goToLower (gs "Example.com") ++
           ('/' :: (dirsConcat [gs "a"] ++ (gs "b" ++ '.' :: gs "txt"))) ++
           (if (queryOfPairs [(gs "x", gs "1")] : GoStr) = [] then []
            else '?' :: queryOfPairs [(gs "x", gs "1")])) :=
  pathCodec_roundtrip nullHashFn (gs "GET") (gs "http") (gs "Example.com") _ _
    ⟨by decide, by decide, by decide, by decide⟩
    ⟨by decide, by decide, by decide, by decide⟩
    ⟨by decide, by decide, by decide, by decide⟩
    (Or.inr ⟨[gs "a"], gs "b", gs "txt", by unfold DirSegsOK; decide, by decide,
      by decide, by decide, by decide, by decide, rfl,
      Or.inr ⟨[(gs "x", gs "1")], by unfold PlainPairs; decide, rfl, by decide,
        by decide⟩⟩)

/-- C1 counterexample to the unamended claim: the extensionless path `/foo`
has a query shorter than `MaxParamLength` and no sanitizable characters, yet
the round trip returns `/foo/` — a trailing slash that was not in the
original URL, so the trailing slash is not merely preserved. -/
theorem pathCodec_not_roundtrip :
    methodURLToFilePath nullHashFn (gs "GET") (gs "http") (gs "example.com")
        (gs "/foo") [] = .ok (gs "get/http/example.com/foo/index.html") ∧
    filePathToMethodURL (gs "get/http/example.com/foo/index.html") =
      .ok (gs "GET", gs "http://example.com/foo/") ∧
    (gs "http://example.com/foo/" : GoStr) ≠ gs "/foo" ++ gs "" ∧
    (gs "http://example.com/foo/" : GoStr) ≠
      gs "http" ++ gs "://" ++ gs "example.com" ++ gs "/foo" := by
  refine ⟨rfl, rfl, by decide, by decide⟩
